import Mathlib

set_option maxHeartbeats 1000000
set_option maxRecDepth 8000

/-!
Shallow embedding of the KeyArray repository (KeyPool.hpp, KeyArrayBase.hpp,
KeyArray.hpp).  The C++ container is a class template; the persistence layer
reads and writes elements with plain scalar stream operators (and copies the
overflow queue through a std::queue<int>), so the embedding instantiates the
element type at Int.  C++ int is modelled as Lean Int: none of the verified
claims drive values anywhere near the 32-bit boundary, so wrap-around is not
observable in any statement below.  Vector accesses that the C++ performs
outside the bounds established by its own guards are undefined behaviour in the
source; the embedding models such writes as no-ops and such reads as default
values, and every positive theorem below is stated on states where the guards
keep all accesses in bounds.
-/

/-- Error taxonomy of the store, one constructor per throw site in the source. -/
inductive KErr where
  | PoolExhausted
  | KeyNotFound
  | InvalidKey
  | ResizeNotReady
  deriving DecidableEq, Repr

/-- Element values: the template parameter instantiated at a scalar type. -/
abbrev Val := Int

/-- Read a Bool list at an Int index, false when out of range. -/
def vgetB (l : List Bool) (i : Int) : Bool :=
  if 0 ≤ i then l.getD i.toNat false else false

/-- Write a Bool list at an Int index, identity when out of range. -/
def vsetB (l : List Bool) (i : Int) (b : Bool) : List Bool :=
  if 0 ≤ i then l.set i.toNat b else l

/-- Read a value list at an Int index, 0 (the value-initialised element) when out of range. -/
def vgetV (l : List Val) (i : Int) : Val :=
  if 0 ≤ i then l.getD i.toNat 0 else 0

/-- Write a value list at an Int index, identity when out of range. -/
def vsetV (l : List Val) (i : Int) (x : Val) : List Val :=
  if 0 ≤ i then l.set i.toNat x else l

/-- Model of std::vector<T>::resize(n): keep a prefix, extend with value-initialised elements. -/
def listResizeV (l : List Val) (n : Nat) : List Val :=
  l.take n ++ List.replicate (n - l.length) 0

/-- Model of std::vector<bool>::resize(n, false). -/
def listResizeB (l : List Bool) (n : Nat) : List Bool :=
  l.take n ++ List.replicate (n - l.length) false

/-- Number of true entries of a validity vector. -/
def countTrue (l : List Bool) : Nat := (l.filter id).length

/-- Physical capacity determined by an inclusive last key (lastKey + 1, clamped at 0). -/
def capOf (lastKey : Int) : Nat := (lastKey + 1).toNat

/-- State of KeyPool (KeyPool.hpp): frontier `nextKey`, inclusive bound `maxKey`,
and the LIFO stack of recycled keys (head = top). -/
structure KeyPool where
  nextKey : Int
  maxKey : Int
  pool : List Int
  deriving DecidableEq, Repr

/-- KeyPool(int maxKey = 99): keys from 0 to maxKey inclusive. -/
def mkKeyPoolMax (maxKey : Int) : KeyPool := ⟨0, maxKey, []⟩

/-- KeyPool(int value1, int value2): sorted range constructor. -/
def mkKeyPoolRange (v1 v2 : Int) : KeyPool :=
  if v1 > v2 then ⟨v2, v1, []⟩ else ⟨v1, v2, []⟩

/-- KeyPool::pop — top of the recycled stack if non-empty, else the frontier;
none models the out_of_range throw when the pool is exhausted. -/
def KeyPool.pop (p : KeyPool) : Option (Int × KeyPool) :=
  match p.pool with
  | v :: rest => some (v, { p with pool := rest })
  | [] =>
    if p.nextKey > p.maxKey then none
    else some (p.nextKey, { p with nextKey := p.nextKey + 1 })

/-- KeyPool::push — recycle only when nextKey ≤ value ≤ maxKey, else silently drop. -/
def KeyPool.push (p : KeyPool) (value : Int) : KeyPool :=
  if value ≥ p.nextKey ∧ value ≤ p.maxKey then { p with pool := value :: p.pool } else p

/-- KeyPool::empty — no recycled keys and the frontier is past the bound. -/
def KeyPool.isEmptyPool (p : KeyPool) : Bool :=
  p.pool.isEmpty && decide (p.nextKey > p.maxKey)

/-- KeyPool::increaseMaxValue — doubles maxKey. -/
def KeyPool.increaseMaxValue (p : KeyPool) : KeyPool := { p with maxKey := p.maxKey * 2 }

/-- KeyPool::reset — clears the recycled stack and installs the sorted new range. -/
def KeyPool.reset (_p : KeyPool) (newStart newEnd : Int) : KeyPool :=
  mkKeyPoolRange newStart newEnd

/-- Full state of a KeyArray object: the KeyArrayBase fields (lastKey,
elementCount, data, valid, pool) plus the KeyArray extension fields
(offset, name, resize machinery, overflow queue), exactly as laid out in
KeyArrayBase.hpp and KeyArray.hpp. -/
structure KeyArray where
  lastKey : Int
  elementCount : Nat
  data : List Val
  valid : List Bool
  pool : KeyPool
  offset : Int
  name : String
  resizingEnabled : Bool
  copyInProgress : Bool
  copyIndex : Int
  newData : List Val
  newValid : List Bool
  newPool : KeyPool
  queueEnabled : Bool
  overflowQueue : List Val
  deriving DecidableEq, Repr

/-- KeyArrayBase(int limitKey): keys 0 .. limitKey - 1, with the KeyArray
members at their in-class initialisers (default-constructed newPool, offset 0
coming from the delegating KeyArray constructors). -/
def mkBase (limitKey : Int) : KeyArray :=
  { lastKey := limitKey - 1
    elementCount := 0
    data := List.replicate (capOf (limitKey - 1)) 0
    valid := List.replicate (capOf (limitKey - 1)) false
    pool := mkKeyPoolRange 0 (limitKey - 1)
    offset := 0
    name := ""
    resizingEnabled := false
    copyInProgress := false
    copyIndex := 0
    newData := []
    newValid := []
    newPool := mkKeyPoolMax 99
    queueEnabled := false
    overflowQueue := [] }

/-- KeyArray(const std::string&): default base range 0..99, offset 0. -/
def mkKeyArrayName (name : String) : KeyArray := { mkBase 100 with name := name }

/-- KeyArray(int limitKey, const std::string&): keys 0 .. limitKey - 1, offset 0. -/
def mkKeyArrayLimit (limitKey : Int) (name : String) : KeyArray :=
  { mkBase limitKey with name := name }

/-- KeyArray(int a, int b, const std::string&): base capacity max-min, offset min. -/
def mkKeyArrayOffset (a b : Int) (name : String) : KeyArray :=
  { mkBase (max a b - min a b) with offset := min a b, name := name }

/-- KeyArrayBase::hasKey — in range and the slot is valid. -/
def KeyArray.baseHasKey (s : KeyArray) (key : Int) : Bool :=
  decide (0 ≤ key) && decide (key ≤ s.lastKey) && vgetB s.valid key

/-- KeyArrayBase::insert — pop a key from the pool, store the value, mark valid,
bump the count; PoolExhausted when no key is available. -/
def KeyArray.baseInsert (s : KeyArray) (v : Val) : Except KErr Int × KeyArray :=
  match s.pool.pop with
  | none => (.error .PoolExhausted, s)
  | some (key, p') =>
    (.ok key,
     { s with pool := p'
              data := vsetV s.data key v
              valid := vsetB s.valid key true
              elementCount := s.elementCount + 1 })

/-- KeyArrayBase::remove — KeyNotFound unless hasKey; mark invalid, decrement
the count, give the key back to the pool (subject to the push rule). -/
def KeyArray.baseRemove (s : KeyArray) (key : Int) : Except KErr Unit × KeyArray :=
  if s.baseHasKey key = false then (.error .KeyNotFound, s)
  else
    (.ok (),
     { s with valid := vsetB s.valid key false
              elementCount := s.elementCount - 1
              pool := s.pool.push key })

/-- KeyArrayBase::at (read) — the stored value, KeyNotFound when invalid or out of range. -/
def KeyArray.baseAt (s : KeyArray) (key : Int) : Except KErr Val :=
  if s.baseHasKey key = false then .error .KeyNotFound
  else .ok (vgetV s.data key)

/-- KeyArrayBase::clear — all slots invalid, count 0, pool back to the full original range. -/
def KeyArray.baseClear (s : KeyArray) : KeyArray :=
  { s with data := List.replicate (capOf s.lastKey) 0
           valid := List.replicate (capOf s.lastKey) false
           elementCount := 0
           pool := mkKeyPoolRange 0 s.lastKey }

/-- KeyArray::hasKey — range check against the logical window, then delegate. -/
def KeyArray.hasKeyB (s : KeyArray) (key : Int) : Bool :=
  if key < s.offset ∨ key > s.lastKey + s.offset then false
  else s.baseHasKey (key - s.offset)

/-- KeyArray::at (read) — InvalidKey outside the logical window, then delegate. -/
def KeyArray.atE (s : KeyArray) (key : Int) : Except KErr Val :=
  if key < s.offset ∨ key > s.lastKey + s.offset then .error .InvalidKey
  else s.baseAt (key - s.offset)

/-- Assignment through the reference returned by KeyArray::at — both range
checks fire before the slot is written. -/
def KeyArray.setAt (s : KeyArray) (key : Int) (v : Val) : Except KErr Unit × KeyArray :=
  if key < s.offset ∨ key > s.lastKey + s.offset then (.error .InvalidKey, s)
  else if s.baseHasKey (key - s.offset) = false then (.error .KeyNotFound, s)
  else (.ok (), { s with data := vsetV s.data (key - s.offset) v })

/-- KeyArray::enableDynamicResizing — prepare the shadow storage only when the
copy has not started (copyIndex == offset, the literal guard in the source),
then flag the copy as in progress. -/
def KeyArray.enableDynamicResizing (s : KeyArray) : KeyArray :=
  if s.resizingEnabled then s
  else
    let s1 := { s with resizingEnabled := true }
    let s2 :=
      if s1.copyIndex = s1.offset then
        let currentSize : Int := s1.lastKey + 1 - s1.offset
        let newLastKey : Int := s1.offset + currentSize * 2 - 1
        { s1 with newData := listResizeV s1.newData (capOf newLastKey)
                  newValid := listResizeB s1.newValid (capOf newLastKey)
                  newPool := mkKeyPoolRange (s1.lastKey + 1 - s1.offset) (newLastKey - s1.offset) }
      else s1
    { s2 with copyInProgress := true }

/-- KeyArray::disableDynamicResizing — drop the flag; purge the shadow state when asked. -/
def KeyArray.disableDynamicResizing (s : KeyArray) (purgeData : Bool) : KeyArray :=
  let s1 := { s with resizingEnabled := false }
  if purgeData then
    { s1 with newData := []
              newValid := []
              newPool := mkKeyPoolMax 99
              copyInProgress := false
              copyIndex := 0 }
  else s1

/-- KeyArray::continueCopyStep — copy one slot's value and validity into the
shadow and advance the cursor; mark the copy complete once the cursor passes lastKey. -/
def KeyArray.continueCopyStep (s : KeyArray) : KeyArray :=
  if s.resizingEnabled = false ∨ s.copyInProgress = false then s
  else
    let s1 :=
      if s.copyIndex ≤ s.lastKey then
        let s0 :=
          if vgetB s.valid s.copyIndex then
            { s with newData := vsetV s.newData s.copyIndex (vgetV s.data s.copyIndex)
                     newValid := vsetB s.newValid s.copyIndex true }
          else s
        { s0 with copyIndex := s0.copyIndex + 1 }
      else s
    if s1.copyIndex > s1.lastKey then { s1 with copyInProgress := false } else s1

/-- Termination measure of the forced-completion while-loop in
KeyArray::insert: each iteration either advances the cursor towards lastKey or
clears copyInProgress. -/
def measFC (s : KeyArray) : Nat :=
  if s.copyInProgress then (s.lastKey + 1 - s.copyIndex).toNat + 1 else 0

/-- Fuelled unrolling of the while (copyInProgress) continueCopyStep() loop. -/
def forceCopyFuel : Nat → KeyArray → KeyArray
  | 0, s => s
  | fuel + 1, s =>
    if s.copyInProgress = true ∧ s.resizingEnabled = true then
      forceCopyFuel fuel s.continueCopyStep
    else s

/-- The while-loop in KeyArray::insert that forces the remaining migration
steps to completion before a switch; the fuel measFC is exactly the loop's
termination measure, so the unrolling below is never cut short (see
forceCopyFuel_eq and forceCopy_eq_step). -/
def KeyArray.forceCopy (s : KeyArray) : KeyArray := forceCopyFuel (measFC s) s

/-- KeyArray::switchToResizedData — ResizeNotReady unless resizing is enabled
and the copy has finished; otherwise install the shadow storage, update
lastKey, and (resizing still being enabled) immediately arm the next shadow. -/
def KeyArray.switchToResizedData (s : KeyArray) : Except KErr Unit × KeyArray :=
  if s.resizingEnabled = false ∨ s.copyInProgress = true then (.error .ResizeNotReady, s)
  else
    let s1 := { s with data := s.newData
                       valid := s.newValid
                       pool := s.newPool
                       lastKey := (s.newData.length : Int) - 1
                       newData := []
                       newValid := []
                       newPool := mkKeyPoolMax 99
                       copyIndex := 0 }
    if s1.resizingEnabled then
      let currentSize : Int := s1.lastKey + 1 - s1.offset
      let newLastKey : Int := s1.offset + currentSize * 2 - 1
      (.ok (),
       { s1 with newData := listResizeV s1.newData (capOf newLastKey)
                 newValid := listResizeB s1.newValid (capOf newLastKey)
                 newPool := mkKeyPoolRange (s1.lastKey + 1 - s1.offset) (newLastKey - s1.offset)
                 copyInProgress := true
                 copyIndex := 0 })
    else (.ok (), s1)

/-- The tail of KeyArray::insert shared by all branches: delegate to the base
insert, mirror the new value into the shadow while resizing, run one copy step
when a copy is in progress, and return the logical key. -/
def KeyArray.insertTail (s : KeyArray) (v : Val) : Except KErr Int × KeyArray :=
  match s.baseInsert v with
  | (.error e, s') => (.error e, s')
  | (.ok actualKey, s') =>
    let s'' :=
      if s'.resizingEnabled then
        let s2 := { s' with newData := vsetV s'.newData actualKey v
                            newValid := vsetB s'.newValid actualKey true }
        if s2.copyInProgress then s2.continueCopyStep else s2
      else s'
    (.ok (actualKey + s.offset), s'')

/-- KeyArray::insert — on exhaustion route to resize-and-switch when resizing
is enabled, else to the overflow queue when buffering is enabled (returning the
-1 indicator), else fail PoolExhausted; in all non-failing cases fall through
to the shared insertion tail. -/
def KeyArray.insert (s : KeyArray) (v : Val) : Except KErr Int × KeyArray :=
  if s.pool.isEmptyPool then
    if s.resizingEnabled then
      let s1 := s.forceCopy
      match s1.switchToResizedData with
      | (.error e, s2) => (.error e, s2)
      | (.ok _, s2) => s2.insertTail v
    else if s.queueEnabled then
      (.ok (-1), { s with overflowQueue := s.overflowQueue ++ [v] })
    else (.error .PoolExhausted, s)
  else s.insertTail v

/-- KeyArray::remove — InvalidKey outside the logical window, then the base
removal; while resizing also clear the slot's shadow validity. -/
def KeyArray.remove (s : KeyArray) (key : Int) : Except KErr Unit × KeyArray :=
  if key < s.offset ∨ key > s.lastKey + s.offset then (.error .InvalidKey, s)
  else
    let actual := key - s.offset
    match s.baseRemove actual with
    | (.error e, s') => (.error e, s')
    | (.ok _, s') =>
      (.ok (),
       if s'.resizingEnabled then { s' with newValid := vsetB s'.newValid actual false } else s')

/-- KeyArray::clear — base clear, drop the overflow queue, reset the resize machinery. -/
def KeyArray.clear (s : KeyArray) : KeyArray :=
  { s.baseClear with overflowQueue := []
                     newData := []
                     newValid := []
                     newPool := mkKeyPoolMax 99
                     copyInProgress := false
                     copyIndex := 0 }

/-- KeyArray::swap — InvalidKey unless both logical keys are valid, then
exchange the two stored values (validity flags untouched). -/
def KeyArray.swapE (s : KeyArray) (key1 key2 : Int) : Except KErr Unit × KeyArray :=
  if s.hasKeyB key1 = false ∨ s.hasKeyB key2 = false then (.error .InvalidKey, s)
  else
    let a := vgetV s.data (key1 - s.offset)
    let b := vgetV s.data (key2 - s.offset)
    (.ok (), { s with data := vsetV (vsetV s.data (key1 - s.offset) b) (key2 - s.offset) a })

/-- KeyArray::enableQueue. -/
def KeyArray.enableQueue (s : KeyArray) : KeyArray := { s with queueEnabled := true }

/-- KeyArray::disableQueue. -/
def KeyArray.disableQueue (s : KeyArray) : KeyArray := { s with queueEnabled := false }

/-- KeyArray::clearQueue — swap the overflow queue with an empty one. -/
def KeyArray.clearQueue (s : KeyArray) : KeyArray := { s with overflowQueue := [] }

/-- One whitespace-delimited token of the snapshot text after the version
line: the writer emits either an integer or a non-numeric word, and the
loader's formatted extractions distinguish exactly these two shapes. -/
inductive Tok where
  | tokInt (n : Int)
  | tokStr (s : String)
  deriving DecidableEq, Repr

/-- Spelling used by operator<< / std::boolalpha for flags in the snapshot. -/
def boolStr (b : Bool) : String := if b then "true" else "false"

/-- Maximal non-whitespace runs of a character list, with the current run
accumulated in reverse: exactly the words formatted extraction sees. -/
def wordsAux : List Char → List Char → List String
  | [], acc => if acc.isEmpty then [] else [String.mk acc.reverse]
  | c :: rest, acc =>
    if c.isWhitespace then
      if acc.isEmpty then wordsAux rest []
      else String.mk acc.reverse :: wordsAux rest []
    else wordsAux rest (c :: acc)

/-- The whitespace-delimited words of a written string: operator>> skips
whitespace (spaces, tabs, newlines alike) and reads one maximal
non-whitespace run per extraction. -/
def splitWords (s : String) : List String := wordsAux s.toList []

/-- An optionally signed all-digit word as the value an int extraction reads. -/
def natOfDigitsAux : List Char → Nat → Option Nat
  | [], acc => some acc
  | c :: rest, acc =>
    if c.isDigit then natOfDigitsAux rest (acc * 10 + (c.toNat - 48)) else none

/-- The integer a formatted int extraction reads from a whole word, none when
the word is not an optionally signed digit run.  (A word that is only
partially numeric would be consumed partially by the C++ stream; tokens are
atomic here, which is faithful for every word the writer itself emits —
labels, numerals, the bool words, (unnamed) — and for single-word names, the
only names the positive theorem below quantifies over.) -/
def intOfWord (w : String) : Option Int :=
  match w.toList with
  | [] => none
  | c :: rest =>
    if c = '-' then
      match rest with
      | [] => none
      | _ => (natOfDigitsAux rest 0).map (fun n => -(n : Int))
    else if c = '+' then
      match rest with
      | [] => none
      | _ => (natOfDigitsAux rest 0).map (fun n => (n : Int))
    else (natOfDigitsAux (c :: rest) 0).map (fun n => (n : Int))

/-- A written word as one stream token: a word spelling an integer is read
back by int extraction as that value, any other word only by string extraction. -/
def wordTok (w : String) : Tok :=
  match intOfWord w with
  | some n => Tok.tokInt n
  | none => Tok.tokStr w

/-- The tokens the written name contributes to the snapshot stream: the
writer emits (unnamed) for an empty name and the raw text of the name
otherwise — which the loader reads back one word at a time, so a name of
several words leaves its extra words in the stream and derails the
positional parse that follows. -/
def nameToks (nm : String) : List Tok :=
  (splitWords (if nm = "" then "(unnamed)" else nm)).map wordTok

/-- The spelling a string extraction reads from one token. -/
def tokSpell : Tok → String
  | Tok.tokInt n => toString n
  | Tok.tokStr w => w

/-- The entry lines of KeyArray::saveToFile: logicalKey and value for every
valid slot, in ascending physical order. -/
def KeyArray.entryToks (s : KeyArray) : List Tok :=
  (List.range (capOf s.lastKey)).flatMap fun i =>
    if s.valid.getD i false then
      [Tok.tokInt ((i : Int) + s.offset), Tok.tokInt (s.data.getD i 0)]
    else []

/-- KeyArray::saveToFile as a token stream (everything after the version line,
which the loader consumes wholesale with getline): metadata fields in fixed
order — the name contributing one token per word of its written text — the
valid entries, then the queue entries (written only when the queue is enabled
and non-empty). -/
def KeyArray.serialize (s : KeyArray) : List Tok :=
  [Tok.tokStr "name:"] ++ nameToks s.name ++
  [Tok.tokStr "offset:", Tok.tokInt s.offset,
   Tok.tokStr "lastKey:", Tok.tokInt s.lastKey,
   Tok.tokStr "dynamicResizing:", Tok.tokStr (boolStr s.resizingEnabled),
   Tok.tokStr "queueEnabled:", Tok.tokStr (boolStr s.queueEnabled),
   Tok.tokStr "queueSize:", Tok.tokInt (s.overflowQueue.length : Int),
   Tok.tokStr "entries:"]
  ++ s.entryToks
  ++ [Tok.tokStr "queueEntries:"]
  ++ (if s.queueEnabled = true ∧ s.overflowQueue ≠ [] then s.overflowQueue.map Tok.tokInt else [])

/-- Parser state of the loading stream: remaining tokens plus the fail flag;
after any failed formatted extraction every later extraction fails too, until
the stream would be cleared (which the loader never does). -/
structure PSt where
  toks : List Tok
  failed : Bool
  deriving DecidableEq, Repr

/-- Formatted extraction into an int: consumes one integer token; a
non-integer token, end of input, or an already-failed stream set the fail flag
and consume no token (the caller zeroes its variable when the failure is
fresh, mirroring the stream writing 0 on a failed parse). -/
def readIntTok (p : PSt) : Option Int × PSt :=
  if p.failed then (none, p)
  else
    match p.toks with
    | Tok.tokInt n :: rest => (some n, ⟨rest, false⟩)
    | _ => (none, { p with failed := true })

/-- Formatted extraction into a string: any token succeeds (an integer reads
back as its decimal spelling); end of input or a failed stream fails. -/
def readStrTok (p : PSt) : Option String × PSt :=
  if p.failed then (none, p)
  else
    match p.toks with
    | Tok.tokInt n :: rest => (some (toString n), ⟨rest, false⟩)
    | Tok.tokStr s :: rest => (some s, ⟨rest, false⟩)
    | [] => (none, { p with failed := true })

/-- Formatted extraction under std::boolalpha: exactly the token true or false. -/
def readBoolTok (p : PSt) : Option Bool × PSt :=
  if p.failed then (none, p)
  else
    match p.toks with
    | Tok.tokStr "true" :: rest => (some true, ⟨rest, false⟩)
    | Tok.tokStr "false" :: rest => (some false, ⟨rest, false⟩)
    | _ => (none, { p with failed := true })

/-- Fuelled unrolling of the entries loop of KeyArray::loadFromFile: read keys
until an extraction fails or the -1 separator appears; for each key read the
value — zeroed when that read fails, as a formatted extraction whose sentry
succeeds but whose parse fails writes 0 to the variable — and store it when
the shifted index is in range (the failing read is always fresh here, the key
read just before it having succeeded).  Each iteration consumes at least one
token, so the fuel used by entriesLoop below covers the whole loop (see
entriesLoopF_eq). -/
def entriesLoopF : Nat → KeyArray → PSt → Val → KeyArray × PSt
  | 0, st, p, _ => (st, p)
  | fuel + 1, st, p, valueReg =>
    match readIntTok p with
    | (none, p') => (st, p')
    | (some key, p') =>
      if key = -1 then (st, p')
      else
        let q := readIntTok p'
        let value := match q.1 with
          | some v => v
          | none => 0
        let actualIndex := key - st.offset
        let st' :=
          if 0 ≤ actualIndex ∧ actualIndex < (st.data.length : Int) then
            { st with data := vsetV st.data actualIndex value
                      valid := vsetB st.valid actualIndex true
                      elementCount := st.elementCount + 1 }
          else st
        entriesLoopF fuel st' q.2 value

/-- The entries loop of KeyArray::loadFromFile. -/
def entriesLoop (st : KeyArray) (p : PSt) (valueReg : Val) : KeyArray × PSt :=
  entriesLoopF (p.toks.length + 1) st p valueReg

/-- Fuelled unrolling of the queue loop of KeyArray::loadFromFile: push every
remaining integer token; it runs only when the stream has not failed. -/
def queueLoopF : Nat → KeyArray → PSt → KeyArray × PSt
  | 0, st, p => (st, p)
  | fuel + 1, st, p =>
    match readIntTok p with
    | (none, p') => (st, p')
    | (some key, p') => queueLoopF fuel { st with overflowQueue := st.overflowQueue ++ [key] } p'

/-- The queue loop of KeyArray::loadFromFile. -/
def queueLoop (st : KeyArray) (p : PSt) : KeyArray × PSt :=
  queueLoopF (p.toks.length + 1) st p

/-- KeyArray::loadFromFile over the token stream after the version line:
labels and fields in fixed positions — a numeric or boolean field whose own
extraction freshly fails is zeroed, while reads attempted after the stream
has already failed leave the field alone — the resize of data and valid
(keeping old prefixes), the count reset, the pool reset to the sorted range
[offset, lastKey], then the two loops. -/
def KeyArray.loadToks (s : KeyArray) (file : List Tok) : KeyArray :=
  let p0 : PSt := ⟨file, false⟩
  let r1 := readStrTok p0
  let r2 := readStrTok r1.2
  let s1 := match r2.1 with
    | some nm => { s with name := nm }
    | none => s
  let r3 := readStrTok r2.2
  let r4 := readIntTok r3.2
  let s2 := match r4.1 with
    | some off => { s1 with offset := off }
    | none => if r3.2.failed then s1 else { s1 with offset := 0 }
  let r5 := readStrTok r4.2
  let r6 := readIntTok r5.2
  let s3 := match r6.1 with
    | some lk => { s2 with lastKey := lk }
    | none => if r5.2.failed then s2 else { s2 with lastKey := 0 }
  let s4 := { s3 with data := listResizeV s3.data (capOf s3.lastKey)
                      valid := listResizeB s3.valid (capOf s3.lastKey)
                      elementCount := 0
                      pool := s3.pool.reset s3.offset s3.lastKey }
  let r7 := readStrTok r6.2
  let r8 := readBoolTok r7.2
  let s5 := match r8.1 with
    | some b => { s4 with resizingEnabled := b }
    | none => if r7.2.failed then s4 else { s4 with resizingEnabled := false }
  let r9 := readStrTok r8.2
  let r10 := readBoolTok r9.2
  let s6 := match r10.1 with
    | some b => { s5 with queueEnabled := b }
    | none => if r9.2.failed then s5 else { s5 with queueEnabled := false }
  let r11 := readStrTok r10.2
  let r12 := readIntTok r11.2
  let r13 := readStrTok r12.2
  let e := entriesLoop s6 r13.2 0
  let r14 := readStrTok e.2
  (queueLoop e.1 r14.2).1

/-! Operation traces and invariant statements. -/

/-- Operations of the base layer (SlotStore): insert a value, remove a key. -/
inductive BaseOp where
  | bput (v : Val)
  | bdel (k : Int)
  deriving DecidableEq, Repr

/-- Run one base operation, keeping the resulting state (errors leave it unchanged). -/
def baseApply (s : KeyArray) : BaseOp → KeyArray
  | .bput v => (s.baseInsert v).2
  | .bdel k => (s.baseRemove k).2

/-- The keys handed out by the successful inserts of a base-operation trace, in order. -/
def baseIssued (s : KeyArray) : List BaseOp → List Int
  | [] => []
  | .bput v :: rest =>
    match s.baseInsert v with
    | (.ok key, s') => key :: baseIssued s' rest
    | (.error _, s') => baseIssued s' rest
  | .bdel k :: rest => baseIssued (s.baseRemove k).2 rest

/-- State after a straight run of base inserts. -/
def insertRunState (s : KeyArray) (vs : List Val) : KeyArray :=
  (vs.map BaseOp.bput).foldl baseApply s

/-- Keys issued by a straight run of base inserts. -/
def insertRunKeys (s : KeyArray) (vs : List Val) : List Int :=
  baseIssued s (vs.map BaseOp.bput)

/-- The id avoidance predicate: every key the pool can still hand out is
strictly above the given id. -/
def avoids (i : Int) (p : KeyPool) : Prop :=
  i < p.nextKey ∧ ∀ x ∈ p.pool, i < x

/-- The public in-memory operations of an OffsetSlotStore (KeyArray), with
resize-disabling taken in its purging form. -/
inductive KOp where
  | kins (v : Val)
  | krem (k : Int)
  | kset (k : Int) (v : Val)
  | kswap (k1 k2 : Int)
  | kclear
  | kenableR
  | kdisableR
  | kstep
  | kswitch
  | kenableQ
  | kdisableQ
  | kclearQ
  deriving DecidableEq, Repr

/-- Run one public operation, keeping the resulting state (errors leave it unchanged). -/
def kapply (s : KeyArray) : KOp → KeyArray
  | .kins v => (s.insert v).2
  | .krem k => (s.remove k).2
  | .kset k v => (s.setAt k v).2
  | .kswap a b => (s.swapE a b).2
  | .kclear => s.clear
  | .kenableR => s.enableDynamicResizing
  | .kdisableR => s.disableDynamicResizing true
  | .kstep => s.continueCopyStep
  | .kswitch => s.switchToResizedData.2
  | .kenableQ => s.enableQueue
  | .kdisableQ => s.disableQueue
  | .kclearQ => s.clearQueue

/-- Run a whole trace of public operations. -/
def krun (s : KeyArray) (ops : List KOp) : KeyArray := ops.foldl kapply s

/-- Syntactic guard on a trace: clear is only issued while resizing is
disabled; the Bool argument tracks the resizing flag along the trace. -/
def clearSafe : Bool → List KOp → Bool
  | _, [] => true
  | r, KOp.kclear :: rest => !r && clearSafe r rest
  | _, KOp.kenableR :: rest => clearSafe true rest
  | _, KOp.kdisableR :: rest => clearSafe false rest
  | r, _ :: rest => clearSafe r rest

/-- State after a straight run of public inserts. -/
def kinsRun (s : KeyArray) (vs : List Val) : KeyArray :=
  vs.foldl (fun t v => (t.insert v).2) s

/-- The logical keys currently answering hasKey, listed in ascending order. -/
def logicalKeys (s : KeyArray) : List Int :=
  ((List.range (capOf s.lastKey)).map (fun i : Nat => s.offset + (i : Int))).filter
    (fun k => s.hasKeyB k)

/-- Invariant of an armed shadow store during offset-0 resizing: sizes, the
fresh shadow allocator over the new id range, cursor bounds, and agreement of
the shadow validity bits with the active ones over the copied region. -/
structure ShadowInv (s : KeyArray) : Prop where
  ndlen : s.newData.length = 2 * capOf s.lastKey
  nvlen : s.newValid.length = 2 * capOf s.lastKey
  np : s.newPool = ⟨s.lastKey + 1, 2 * s.lastKey + 1, []⟩
  cinn : 0 ≤ s.copyIndex
  cidone : s.copyInProgress = false → s.lastKey < s.copyIndex
  cirun : s.copyInProgress = true → s.copyIndex ≤ s.lastKey
  mirror1 : ∀ i : Int, 0 ≤ i → i < s.copyIndex → i ≤ s.lastKey →
    vgetB s.valid i = true → vgetB s.newValid i = true
  mirror2 : ∀ i : Int, 0 ≤ i → i ≤ s.lastKey →
    vgetB s.newValid i = true → vgetB s.valid i = true
  newreg : ∀ i : Nat, capOf s.lastKey ≤ i → s.newValid.getD i false = false

/-- Invariant of every store reachable from a fresh offset-0 store by the
in-memory operations (clear only while resizing is off, purging disables):
well-formed sizes, the count matching the validity bits, an exhausted-or-fresh
frontier-only pool whose available ids are all invalid, and a well-formed
shadow exactly when resizing is on. -/
structure StoreInv (s : KeyArray) : Prop where
  off0 : s.offset = 0
  lk0 : 0 ≤ s.lastKey
  dlen : s.data.length = capOf s.lastKey
  vlen : s.valid.length = capOf s.lastKey
  cnt : s.elementCount = countTrue s.valid
  pmax : s.pool.maxKey = s.lastKey
  pnn : 0 ≤ s.pool.nextKey
  pstk : s.pool.pool = []
  availFr : ∀ j : Int, s.pool.nextKey ≤ j → j ≤ s.pool.maxKey → vgetB s.valid j = false
  shOn : s.resizingEnabled = true → ShadowInv s
  shOff : s.resizingEnabled = false →
    s.newData = [] ∧ s.newValid = [] ∧ s.copyInProgress = false ∧ s.copyIndex = 0

/-- Value agreement of the shadow with the active store over the copied region;
together with StoreInv this is what makes a switch preserve stored values. -/
def ShadowVals (s : KeyArray) : Prop :=
  ∀ i : Int, 0 ≤ i → i < s.copyIndex → i ≤ s.lastKey →
    vgetB s.valid i = true → vgetV s.newData i = vgetV s.data i

/-- The (logicalKey, value) pairs a snapshot records, in ascending physical order. -/
def pairsOf (s : KeyArray) : List (Int × Int) :=
  (List.range (capOf s.lastKey)).filterMap fun i =>
    if s.valid.getD i false then some (((i : Int) + s.offset), s.data.getD i 0) else none

/-- The store update performed for one parsed snapshot entry. -/
def storeEntry (st : KeyArray) (e : Int × Int) : KeyArray :=
  let actualIndex := e.1 - st.offset
  if 0 ≤ actualIndex ∧ actualIndex < (st.data.length : Int) then
    { st with data := vsetV st.data actualIndex e.2
              valid := vsetB st.valid actualIndex true
              elementCount := st.elementCount + 1 }
  else st

/-- The state produced by the shared insertion tail once the pool has handed
out a key (mirrors the source's fall-through after the base insert). -/
def insertTailState (s : KeyArray) (key : Int) (p' : KeyPool) (v : Val) : KeyArray :=
  let s' : KeyArray :=
    { s with pool := p'
             data := vsetV s.data key v
             valid := vsetB s.valid key true
             elementCount := s.elementCount + 1 }
  if s'.resizingEnabled then
    let s2 := { s' with newData := vsetV s'.newData key v
                        newValid := vsetB s'.newValid key true }
    if s2.copyInProgress then s2.continueCopyStep else s2
  else s'

/-- The state produced by a successful switchToResizedData. -/
def switchedState (s : KeyArray) : KeyArray :=
  let s1 : KeyArray :=
    { s with data := s.newData
             valid := s.newValid
             pool := s.newPool
             lastKey := (s.newData.length : Int) - 1
             newData := []
             newValid := []
             newPool := mkKeyPoolMax 99
             copyIndex := 0 }
  let currentSize : Int := s1.lastKey + 1 - s1.offset
  let newLastKey : Int := s1.offset + currentSize * 2 - 1
  { s1 with newData := listResizeV s1.newData (capOf newLastKey)
            newValid := listResizeB s1.newValid (capOf newLastKey)
            newPool := mkKeyPoolRange (s1.lastKey + 1 - s1.offset) (newLastKey - s1.offset)
            copyInProgress := true
            copyIndex := 0 }

/-- A store holding one live element and one buffered value: capacity-1 store,
queue enabled, one stored insert and one overflowed insert. -/
def c6state : KeyArray := ((((mkKeyArrayLimit 1 "").enableQueue).insert 7).2.insert 8).2

/-- A fresh capacity-3 store one insert into an enabled migration. -/
def c7w2 : KeyArray := (((mkKeyArrayLimit 3 "").enableDynamicResizing).insert 1).2

/-- An offset -1 store (single logical key -1) with the queue enabled and the
single slot taken: the next insert is routed to the buffer. -/
def c8state : KeyArray := (((mkKeyArrayOffset (-1) 0 "").enableQueue).insert 3).2

/-- A full capacity-1 store with the queue enabled. -/
def c8w : KeyArray := (((mkKeyArrayLimit 1 "").enableQueue).insert 7).2

/-- A full capacity-1 store, no queue, no resizing. -/
def c2w : KeyArray := ((mkKeyArrayLimit 1 "").insert 7).2

/-- A full capacity-1 store with resizing enabled (migration already done). -/
def c2wr : KeyArray := (((mkKeyArrayLimit 1 "").enableDynamicResizing).insert 7).2

/-- A full capacity-1 store with the queue enabled. -/
def c2wq : KeyArray := (((mkKeyArrayLimit 1 "").enableQueue).insert 7).2

/-- A full capacity-1 store with no overflow handling enabled. -/
def c9wex : KeyArray := ((mkKeyArrayLimit 1 "").insert 7).2

/-- Entry pairs read off the first n physical slots of a store. -/
def pairsUpTo (s : KeyArray) (n : Nat) : List (Int × Int) :=
  (List.range n).filterMap fun i =>
    if s.valid.getD i false then some (((i : Int) + s.offset), s.data.getD i 0) else none

/-- A source store for the round trip: capacity 1, queue enabled, one stored
value (key 0 holds 7) and one buffered value (8). -/
def c3src : KeyArray := ((((mkKeyArrayLimit 1 "").enableQueue).insert 7).2.insert 8).2

/-- A saved store whose name contains a space: a single stored value (key 0
holds 7) under the two-word name a b. -/
def c3srcW : KeyArray := (((mkKeyArrayLimit 1 "a b").enableQueue).insert 7).2

def c4runA : KeyArray :=
  ((((mkKeyArrayLimit 1 "").insert 5).2.loadToks
    ((mkKeyArrayLimit 1 "").insert 5).2.serialize).insert 6).2

def c4runB : KeyArray :=
  ((((((((((mkKeyArrayLimit 2 "").insert 10).2.insert 11).2.enableDynamicResizing).insert
    12).2.disableDynamicResizing false).remove 0).2.enableDynamicResizing).insert
    13).2.insert 14).2

def c4runC : KeyArray :=
  (((mkKeyArrayLimit 1 "").enableDynamicResizing.clear.insert 20).2.insert 21).2

/-- A formatted extraction never lengthens the remaining input. -/
theorem readIntTok_toks_le (p : PSt) : (readIntTok p).2.toks.length ≤ p.toks.length := by
  unfold readIntTok
  split
  · exact le_refl _
  · split
    · rename_i n rest heq
      simp [heq]
    · exact le_refl _

/-- A successful int extraction consumes exactly one token. -/
theorem readIntTok_some_len {p p' : PSt} {k : Int} (h : readIntTok p = (some k, p')) :
    p'.toks.length < p.toks.length := by
  unfold readIntTok at h
  split at h
  · simp_all
  · split at h
    · rename_i n rest heq
      cases h
      simp [heq]
    · simp_all

/-! Basic lemmas about the indexing helpers. -/

theorem getD_set_self {α : Type} (l : List α) (n : Nat) (a d : α) (h : n < l.length) :
    (l.set n a).getD n d = a := by
  simp [List.getD_eq_getElem?_getD, List.getElem?_set_self', h]

theorem getD_set_ne {α : Type} (l : List α) (m n : Nat) (a d : α) (h : m ≠ n) :
    (l.set m a).getD n d = l.getD n d := by
  simp [List.getD_eq_getElem?_getD, List.getElem?_set_ne h]

theorem getD_of_len_le {α : Type} (l : List α) (n : Nat) (d : α) (h : l.length ≤ n) :
    l.getD n d = d := by
  simp [List.getD_eq_getElem?_getD, List.getElem?_eq_none h]

theorem vsetB_length (l : List Bool) (i : Int) (b : Bool) : (vsetB l i b).length = l.length := by
  unfold vsetB; split <;> simp

theorem vsetV_length (l : List Val) (i : Int) (x : Val) : (vsetV l i x).length = l.length := by
  unfold vsetV; split <;> simp

theorem vgetB_neg {l : List Bool} {i : Int} (h : i < 0) : vgetB l i = false := by
  unfold vgetB; rw [if_neg (by omega)]

theorem vgetB_vsetB_self {l : List Bool} {i : Int} {b : Bool} (h0 : 0 ≤ i)
    (h1 : i.toNat < l.length) : vgetB (vsetB l i b) i = b := by
  unfold vgetB vsetB
  rw [if_pos h0, if_pos h0, getD_set_self _ _ _ _ h1]

theorem vgetB_vsetB_ne {l : List Bool} {i j : Int} {b : Bool} (h : i ≠ j) :
    vgetB (vsetB l i b) j = vgetB l j := by
  unfold vgetB vsetB
  by_cases hi : 0 ≤ i
  · by_cases hj : 0 ≤ j
    · rw [if_pos hi, if_pos hj, if_pos hj, getD_set_ne _ _ _ _ _ (by omega)]
    · rw [if_pos hi, if_neg hj, if_neg hj]
  · rw [if_neg hi]

theorem vgetV_vsetV_self {l : List Val} {i : Int} {x : Val} (h0 : 0 ≤ i)
    (h1 : i.toNat < l.length) : vgetV (vsetV l i x) i = x := by
  unfold vgetV vsetV
  rw [if_pos h0, if_pos h0, getD_set_self _ _ _ _ h1]

theorem vgetV_vsetV_ne {l : List Val} {i j : Int} {x : Val} (h : i ≠ j) :
    vgetV (vsetV l i x) j = vgetV l j := by
  unfold vgetV vsetV
  by_cases hi : 0 ≤ i
  · by_cases hj : 0 ≤ j
    · rw [if_pos hi, if_pos hj, if_pos hj, getD_set_ne _ _ _ _ _ (by omega)]
    · rw [if_pos hi, if_neg hj, if_neg hj]
  · rw [if_neg hi]

theorem vgetB_of_len_le {l : List Bool} {i : Int} (h : (l.length : Int) ≤ i) : vgetB l i = false := by
  unfold vgetB
  split
  · exact getD_of_len_le _ _ _ (by omega)
  · rfl

theorem vgetB_replicate (n : Nat) (i : Int) : vgetB (List.replicate n false) i = false := by
  unfold vgetB
  split
  · rw [List.getD_eq_getElem?_getD, List.getElem?_replicate]
    split <;> rfl
  · rfl

/-! Lemmas about countTrue. -/

theorem countTrue_replicate (n : Nat) : countTrue (List.replicate n false) = 0 := by
  unfold countTrue
  induction n with
  | zero => rfl
  | succ m ih => simpa [List.replicate_succ, List.filter] using ih

theorem countTrue_append (l1 l2 : List Bool) :
    countTrue (l1 ++ l2) = countTrue l1 + countTrue l2 := by
  unfold countTrue
  simp [List.filter_append]

theorem countTrue_set_true : ∀ (l : List Bool) (n : Nat), n < l.length →
    l.getD n false = false → countTrue (l.set n true) = countTrue l + 1 := by
  intro l
  induction l with
  | nil => intro n h; simp at h
  | cons a t ih =>
    intro n hlen hget
    cases n with
    | zero =>
      cases a
      · simp [countTrue, List.filter]
      · simp [List.getD] at hget
    | succ m =>
      have := ih m (by simpa using hlen) (by simpa [List.getD] using hget)
      cases a <;> simp [countTrue, List.filter, List.set] at this ⊢ <;> omega

theorem countTrue_set_false : ∀ (l : List Bool) (n : Nat),
    l.getD n false = true → countTrue (l.set n false) = countTrue l - 1 ∧ 1 ≤ countTrue l := by
  intro l
  induction l with
  | nil => intro n h; simp [List.getD] at h
  | cons a t ih =>
    intro n hget
    cases n with
    | zero =>
      simp [List.getD] at hget
      subst hget
      simp [countTrue, List.filter]
    | succ m =>
      have := ih m (by simpa [List.getD] using hget)
      cases a <;> simp [countTrue, List.filter, List.set] at this ⊢ <;> omega

theorem countTrue_eq_filter_range (l : List Bool) :
    countTrue l = ((List.range l.length).filter (fun j => l.getD j false)).length := by
  induction l using List.reverseRecOn with
  | nil => rfl
  | append_singleton t a ih =>
    rw [countTrue_append]
    have hr : List.range (t ++ [a]).length = List.range t.length ++ [t.length] := by
      simp [List.range_succ]
    rw [hr, List.filter_append]
    have h1 : (List.range t.length).filter (fun j => (t ++ [a]).getD j false) =
        (List.range t.length).filter (fun j => t.getD j false) := by
      apply List.filter_congr
      intro j hj
      have hjl : j < t.length := List.mem_range.mp hj
      simp [List.getD_eq_getElem?_getD, List.getElem?_append, hjl]
    have h2 : (t ++ [a]).getD t.length false = a := by
      simp [List.getD_eq_getElem?_getD]
    rw [h1]
    cases a
    · have h3 : List.filter (fun j => (t ++ [false]).getD j false) [t.length] = [] := by
        simp [List.filter, h2]
      rw [h3, ih]
      simp [countTrue, List.filter]
    · have h3 : List.filter (fun j => (t ++ [true]).getD j false) [t.length] = [t.length] := by
        simp [List.filter, h2]
      rw [h3, ih]
      simp [countTrue, List.filter]

theorem countTrue_eq_of_pointwise (l1 l2 : List Bool) (n : Nat)
    (hl1 : l1.length = n) (hl2 : n ≤ l2.length)
    (hpt : ∀ j : Nat, j < n → l2.getD j false = l1.getD j false)
    (hhi : ∀ j : Nat, n ≤ j → l2.getD j false = false) :
    countTrue l2 = countTrue l1 := by
  rw [countTrue_eq_filter_range, countTrue_eq_filter_range]
  have hsplit : List.range l2.length = List.range n ++ (List.range (l2.length - n)).map (n + ·) := by
    rw [← List.range_add]
    congr 1
    omega
  rw [hsplit, List.filter_append]
  have hmap : List.filter (fun j => l2.getD j false) ((List.range (l2.length - n)).map (n + ·)) =
      List.map (n + ·)
        (List.filter ((fun j => l2.getD j false) ∘ (n + ·)) (List.range (l2.length - n))) := by
    rw [List.filter_map]
  have hnil : List.filter ((fun j => l2.getD j false) ∘ (n + ·)) (List.range (l2.length - n)) =
      ([] : List Nat) := by
    apply List.filter_eq_nil_iff.mpr
    intro j _
    simp only [Function.comp_apply]
    rw [hhi (n + j) (by omega)]
    simp
  rw [hmap, hnil]
  simp only [List.map_nil, List.append_nil]
  rw [hl1]
  congr 1
  apply List.filter_congr
  intro j hj
  rw [hpt j (List.mem_range.mp hj)]

/-! Lemmas about KeyPool and the resize loop. -/

theorem pop_of_not_empty {p : KeyPool} (h : p.isEmptyPool = false) :
    ∃ k q, p.pop = some (k, q) := by
  unfold KeyPool.isEmptyPool at h
  unfold KeyPool.pop
  match hp : p.pool with
  | v :: rest => exact ⟨v, _, rfl⟩
  | [] =>
    rw [hp] at h
    simp at h
    rw [if_neg (by omega)]
    exact ⟨p.nextKey, _, rfl⟩

/-- Fields of the store that a single copy step never touches, plus the shadow lengths. -/
theorem continueCopyStep_frame (s : KeyArray) :
    s.continueCopyStep.overflowQueue = s.overflowQueue ∧
    s.continueCopyStep.lastKey = s.lastKey ∧
    s.continueCopyStep.resizingEnabled = s.resizingEnabled ∧
    s.continueCopyStep.newData.length = s.newData.length ∧
    s.continueCopyStep.data = s.data ∧
    s.continueCopyStep.valid = s.valid ∧
    s.continueCopyStep.pool = s.pool ∧
    s.continueCopyStep.elementCount = s.elementCount ∧
    s.continueCopyStep.offset = s.offset ∧
    s.continueCopyStep.queueEnabled = s.queueEnabled ∧
    s.continueCopyStep.newPool = s.newPool ∧
    s.continueCopyStep.newValid.length = s.newValid.length ∧
    s.continueCopyStep.name = s.name := by
  unfold KeyArray.continueCopyStep
  split
  · simp
  · by_cases h1 : s.copyIndex ≤ s.lastKey
    all_goals by_cases h2 : vgetB s.valid s.copyIndex = true
    all_goals simp [h1, h2]
    all_goals split
    all_goals simp [vsetV_length, vsetB_length]

/-- A copy step under an active migration either finishes the copy or advances
the cursor by exactly one while the cursor is within the old range. -/
theorem continueCopyStep_progress (s : KeyArray)
    (h : s.copyInProgress = true ∧ s.resizingEnabled = true) :
    s.continueCopyStep.copyInProgress = false ∨
    (s.continueCopyStep.copyInProgress = true ∧
     s.continueCopyStep.copyIndex = s.copyIndex + 1 ∧ s.copyIndex ≤ s.lastKey) := by
  unfold KeyArray.continueCopyStep
  rw [h.1, h.2]
  by_cases h1 : s.copyIndex ≤ s.lastKey
  all_goals by_cases h2 : vgetB s.valid s.copyIndex = true
  all_goals simp [h1, h2]
  all_goals split
  all_goals first
    | simp [h1]
    | omega

theorem measFC_step_lt (s : KeyArray)
    (h : s.copyInProgress = true ∧ s.resizingEnabled = true) :
    measFC s.continueCopyStep < measFC s := by
  have hlk := (continueCopyStep_frame s).2.1
  rcases continueCopyStep_progress s h with hc | ⟨hc, hci, hle⟩
  · unfold measFC
    rw [hc, h.1]
    simp
  · unfold measFC
    rw [hc, h.1, hci, hlk]
    simp only [if_true]
    omega

theorem measFC_zero_no_guard {s : KeyArray} (h : measFC s = 0) :
    ¬(s.copyInProgress = true ∧ s.resizingEnabled = true) := by
  intro hc
  unfold measFC at h
  rw [hc.1] at h
  simp at h

theorem forceCopyFuel_succ (n : Nat) (s : KeyArray) :
    forceCopyFuel (n + 1) s =
      (if s.copyInProgress = true ∧ s.resizingEnabled = true then
        forceCopyFuel n s.continueCopyStep
       else s) := rfl

/-- The fuelled loop is insensitive to the exact fuel once it covers the measure. -/
theorem forceCopyFuel_eq :
    ∀ (n m : Nat) (s : KeyArray), measFC s ≤ n → measFC s ≤ m →
      forceCopyFuel n s = forceCopyFuel m s := by
  intro n
  induction n with
  | zero =>
    intro m s hn hm
    have h0 : measFC s = 0 := by omega
    have hng := measFC_zero_no_guard h0
    cases m with
    | zero => rfl
    | succ m =>
      rw [forceCopyFuel_succ, if_neg hng]
      rfl
  | succ n ih =>
    intro m s hn hm
    by_cases hg : s.copyInProgress = true ∧ s.resizingEnabled = true
    · have hlt := measFC_step_lt s hg
      cases m with
      | zero =>
        have h0 : measFC s = 0 := by omega
        exact absurd hg (measFC_zero_no_guard h0)
      | succ m =>
        rw [forceCopyFuel_succ, forceCopyFuel_succ, if_pos hg, if_pos hg]
        exact ih m s.continueCopyStep (by omega) (by omega)
    · cases m with
      | zero =>
        rw [forceCopyFuel_succ, if_neg hg]
        rfl
      | succ m =>
        rw [forceCopyFuel_succ, forceCopyFuel_succ, if_neg hg, if_neg hg]

theorem forceCopy_eq_step (s : KeyArray)
    (h : s.copyInProgress = true ∧ s.resizingEnabled = true) :
    s.forceCopy = s.continueCopyStep.forceCopy := by
  unfold KeyArray.forceCopy
  obtain ⟨k, hk⟩ : ∃ k, measFC s = k + 1 := by
    refine ⟨(s.lastKey + 1 - s.copyIndex).toNat, ?_⟩
    unfold measFC
    rw [h.1]
    simp
  have hlt := measFC_step_lt s h
  rw [hk, forceCopyFuel_succ, if_pos h]
  exact forceCopyFuel_eq _ _ _ (by omega) (le_refl _)

theorem forceCopy_eq_self (s : KeyArray)
    (h : ¬(s.copyInProgress = true ∧ s.resizingEnabled = true)) :
    s.forceCopy = s := by
  unfold KeyArray.forceCopy
  cases hm : measFC s with
  | zero => rfl
  | succ n =>
    rw [forceCopyFuel_succ, if_neg h]

/-- Any predicate preserved by single copy steps is preserved by the forced loop. -/
theorem forceCopy_invariant (P : KeyArray → Prop)
    (hstep : ∀ t : KeyArray, t.copyInProgress = true → t.resizingEnabled = true →
      P t → P t.continueCopyStep) :
    ∀ s : KeyArray, P s → P s.forceCopy := by
  have main : ∀ (n : Nat) (s : KeyArray), measFC s ≤ n → P s → P s.forceCopy := by
    intro n
    induction n with
    | zero =>
      intro s hm hp
      have hnc : ¬(s.copyInProgress = true ∧ s.resizingEnabled = true) := by
        intro hc
        unfold measFC at hm
        rw [hc.1] at hm
        simp at hm
      rw [forceCopy_eq_self s hnc]
      exact hp
    | succ k ih =>
      intro s hm hp
      by_cases h : s.copyInProgress = true ∧ s.resizingEnabled = true
      · rw [forceCopy_eq_step s h]
        have hlt := measFC_step_lt s h
        exact ih s.continueCopyStep (by omega) (hstep s h.1 h.2 hp)
      · rw [forceCopy_eq_self s h]
        exact hp
  intro s
  exact main (measFC s) s (le_refl _)

/-- The forced loop always exits with its guard false. -/
theorem forceCopy_exit (s : KeyArray) :
    ¬(s.forceCopy.copyInProgress = true ∧ s.forceCopy.resizingEnabled = true) := by
  have main : ∀ (n : Nat) (s : KeyArray), measFC s ≤ n →
      ¬(s.forceCopy.copyInProgress = true ∧ s.forceCopy.resizingEnabled = true) := by
    intro n
    induction n with
    | zero =>
      intro s hm
      have hnc : ¬(s.copyInProgress = true ∧ s.resizingEnabled = true) := by
        intro hc
        unfold measFC at hm
        rw [hc.1] at hm
        simp at hm
      rw [forceCopy_eq_self s hnc]
      exact hnc
    | succ k ih =>
      intro s hm
      by_cases h : s.copyInProgress = true ∧ s.resizingEnabled = true
      · rw [forceCopy_eq_step s h]
        have hlt := measFC_step_lt s h
        exact ih s.continueCopyStep (by omega)
      · rw [forceCopy_eq_self s h]
        exact h
  exact main (measFC s) s (le_refl _)

/-- Fields of the store untouched by the whole forced loop. -/
theorem forceCopy_frame (s : KeyArray) :
    s.forceCopy.overflowQueue = s.overflowQueue ∧
    s.forceCopy.lastKey = s.lastKey ∧
    s.forceCopy.resizingEnabled = s.resizingEnabled ∧
    s.forceCopy.newData.length = s.newData.length ∧
    s.forceCopy.data = s.data ∧
    s.forceCopy.valid = s.valid ∧
    s.forceCopy.pool = s.pool ∧
    s.forceCopy.elementCount = s.elementCount ∧
    s.forceCopy.offset = s.offset ∧
    s.forceCopy.queueEnabled = s.queueEnabled ∧
    s.forceCopy.newPool = s.newPool ∧
    s.forceCopy.newValid.length = s.newValid.length ∧
    s.forceCopy.name = s.name := by
  have := forceCopy_invariant
    (fun t => t.overflowQueue = s.overflowQueue ∧
      t.lastKey = s.lastKey ∧
      t.resizingEnabled = s.resizingEnabled ∧
      t.newData.length = s.newData.length ∧
      t.data = s.data ∧
      t.valid = s.valid ∧
      t.pool = s.pool ∧
      t.elementCount = s.elementCount ∧
      t.offset = s.offset ∧
      t.queueEnabled = s.queueEnabled ∧
      t.newPool = s.newPool ∧
      t.newValid.length = s.newValid.length ∧
      t.name = s.name)
    (by
      intro t _ _ hp
      have hf := continueCopyStep_frame t
      exact ⟨hf.1.trans hp.1, (hf.2.1).trans hp.2.1, (hf.2.2.1).trans hp.2.2.1,
        (hf.2.2.2.1).trans hp.2.2.2.1, (hf.2.2.2.2.1).trans hp.2.2.2.2.1,
        (hf.2.2.2.2.2.1).trans hp.2.2.2.2.2.1, (hf.2.2.2.2.2.2.1).trans hp.2.2.2.2.2.2.1,
        (hf.2.2.2.2.2.2.2.1).trans hp.2.2.2.2.2.2.2.1,
        (hf.2.2.2.2.2.2.2.2.1).trans hp.2.2.2.2.2.2.2.2.1,
        (hf.2.2.2.2.2.2.2.2.2.1).trans hp.2.2.2.2.2.2.2.2.2.1,
        (hf.2.2.2.2.2.2.2.2.2.2.1).trans hp.2.2.2.2.2.2.2.2.2.2.1,
        (hf.2.2.2.2.2.2.2.2.2.2.2.1).trans hp.2.2.2.2.2.2.2.2.2.2.2.1,
        (hf.2.2.2.2.2.2.2.2.2.2.2.2).trans hp.2.2.2.2.2.2.2.2.2.2.2.2⟩)
    s
    ⟨rfl, rfl, rfl, rfl, rfl, rfl, rfl, rfl, rfl, rfl, rfl, rfl, rfl⟩
  exact this

/-- With resizing enabled the forced loop ends with the copy complete. -/
theorem forceCopy_not_inProgress (s : KeyArray) (h : s.resizingEnabled = true) :
    s.forceCopy.copyInProgress = false := by
  have hres : s.forceCopy.resizingEnabled = true := (forceCopy_frame s).2.2.1.trans h
  have := forceCopy_exit s
  by_cases hc : s.forceCopy.copyInProgress = true
  · exact absurd ⟨hc, hres⟩ this
  · simpa using hc

theorem insertTail_eq (s : KeyArray) (v : Val) (key : Int) (p' : KeyPool)
    (hpop : s.pool.pop = some (key, p')) :
    s.insertTail v = (.ok (key + s.offset), insertTailState s key p' v) := by
  unfold KeyArray.insertTail KeyArray.baseInsert insertTailState
  rw [hpop]

theorem insertTail_eq_error (s : KeyArray) (v : Val) (hpop : s.pool.pop = none) :
    s.insertTail v = (.error .PoolExhausted, s) := by
  unfold KeyArray.insertTail KeyArray.baseInsert
  rw [hpop]

theorem insert_eq_tail (s : KeyArray) (v : Val) (hne : s.pool.isEmptyPool = false) :
    s.insert v = s.insertTail v := by
  unfold KeyArray.insert
  rw [hne]
  simp

theorem insert_eq_exhaust_resize (s : KeyArray) (v : Val)
    (hemp : s.pool.isEmptyPool = true) (hres : s.resizingEnabled = true) :
    s.insert v =
      (match s.forceCopy.switchToResizedData with
       | (.error e, s2) => (.error e, s2)
       | (.ok _, s2) => s2.insertTail v) := by
  unfold KeyArray.insert
  rw [hemp, hres]
  simp

theorem insert_eq_queue (s : KeyArray) (v : Val)
    (hemp : s.pool.isEmptyPool = true) (hres : s.resizingEnabled = false)
    (hq : s.queueEnabled = true) :
    s.insert v = (.ok (-1), { s with overflowQueue := s.overflowQueue ++ [v] }) := by
  unfold KeyArray.insert
  rw [hemp, hres, hq]
  simp

theorem insert_eq_fail (s : KeyArray) (v : Val)
    (hemp : s.pool.isEmptyPool = true) (hres : s.resizingEnabled = false)
    (hq : s.queueEnabled = false) :
    s.insert v = (.error .PoolExhausted, s) := by
  unfold KeyArray.insert
  rw [hemp, hres, hq]
  simp

theorem switch_eq_ok (s : KeyArray) (hres : s.resizingEnabled = true)
    (hcp : s.copyInProgress = false) :
    s.switchToResizedData = (.ok (), switchedState s) := by
  unfold KeyArray.switchToResizedData switchedState
  rw [hres, hcp]
  simp

theorem switch_eq_error (s : KeyArray)
    (h : s.resizingEnabled = false ∨ s.copyInProgress = true) :
    s.switchToResizedData = (.error .ResizeNotReady, s) := by
  unfold KeyArray.switchToResizedData
  rw [if_pos h]

/-- Fields of the store that the insertion tail never changes. -/
theorem insertTailState_frame (s : KeyArray) (key : Int) (p' : KeyPool) (v : Val) :
    (insertTailState s key p' v).overflowQueue = s.overflowQueue ∧
    (insertTailState s key p' v).lastKey = s.lastKey ∧
    (insertTailState s key p' v).offset = s.offset ∧
    (insertTailState s key p' v).resizingEnabled = s.resizingEnabled ∧
    (insertTailState s key p' v).queueEnabled = s.queueEnabled ∧
    (insertTailState s key p' v).name = s.name := by
  unfold insertTailState
  by_cases hres : s.resizingEnabled = true
  all_goals by_cases hcp : s.copyInProgress = true
  all_goals simp [hres, hcp, continueCopyStep_frame]

/-- C10: hasKey is total and never fails: for every store state and every
integer key (negative, below the offset, or above offset + lastKey included)
hasKey returns a plain boolean, false whenever the key lies outside the
logical window [offset, offset + lastKey], with no precondition on the caller;
totality is witnessed by hasKeyB being a total Bool-valued function of the
model state. -/
theorem c10_hasKey_total (s : KeyArray) (key : Int)
    (h : key < s.offset ∨ s.offset + s.lastKey < key) :
    s.hasKeyB key = false := by
  unfold KeyArray.hasKeyB
  rw [if_pos (by omega)]

theorem c10_witness :
    (((-7 : Int) < (mkKeyArrayName "demo").offset ∨
      (mkKeyArrayName "demo").offset + (mkKeyArrayName "demo").lastKey < (-7 : Int)) ∧
     (mkKeyArrayName "demo").hasKeyB (-7) = false) ∧
    (((1000 : Int) < (mkKeyArrayName "demo").offset ∨
      (mkKeyArrayName "demo").offset + (mkKeyArrayName "demo").lastKey < (1000 : Int)) ∧
     (mkKeyArrayName "demo").hasKeyB 1000 = false) :=
  ⟨⟨by decide, c10_hasKey_total _ _ (by decide)⟩,
   ⟨by decide, c10_hasKey_total _ _ (by decide)⟩⟩

/-- C6 counterexample: clear() does not leave the overflow buffer unchanged —
on a store whose buffer holds [8], clear() empties the buffer. -/
theorem c6_counterexample :
    c6state.overflowQueue = [8] ∧
    (KeyArray.clear c6state).overflowQueue ≠ c6state.overflowQueue := by
  constructor
  · decide
  · decide

/-- C6 amended: clear() always empties the overflow buffer along with the
store (the buffer does not persist across clear); clearQueue also empties it. -/
theorem c6_amended (s : KeyArray) :
    (KeyArray.clear s).overflowQueue = [] ∧ (KeyArray.clearQueue s).overflowQueue = [] :=
  ⟨rfl, rfl⟩

/-- C7 counterexample: on a store constructed with offset 5 (keys 5..9,
logical size 5), enabling the Resizer does not allocate a shadow of double the
logical size — the copyIndex == offset guard fails and no shadow storage is
prepared at all. -/
theorem c7_counterexample :
    (mkKeyArrayOffset 5 10 "").enableDynamicResizing.newData.length ≠
      2 * capOf (mkKeyArrayOffset 5 10 "").lastKey := by
  decide

theorem listResizeV_length (l : List Val) (n : Nat) : (listResizeV l n).length = n := by
  simp [listResizeV]
  omega

theorem listResizeB_length (l : List Bool) (n : Nat) : (listResizeB l n).length = n := by
  simp [listResizeB]
  omega

/-- What one copy step does at the cursor while the migration is running. -/
theorem continueCopyStep_at (t : KeyArray)
    (hres : t.resizingEnabled = true) (hcp : t.copyInProgress = true)
    (hle : t.copyIndex ≤ t.lastKey) :
    t.continueCopyStep.copyIndex = t.copyIndex + 1 ∧
    t.continueCopyStep.valid = t.valid ∧
    t.continueCopyStep.data = t.data ∧
    (vgetB t.valid t.copyIndex = true →
      t.continueCopyStep.newValid = vsetB t.newValid t.copyIndex true ∧
      t.continueCopyStep.newData = vsetV t.newData t.copyIndex (vgetV t.data t.copyIndex)) ∧
    (vgetB t.valid t.copyIndex = false →
      t.continueCopyStep.newValid = t.newValid ∧
      t.continueCopyStep.newData = t.newData) := by
  unfold KeyArray.continueCopyStep
  rw [hres, hcp]
  by_cases hv : vgetB t.valid t.copyIndex = true
  all_goals simp [hle, hv]
  all_goals split
  all_goals simp

/-- The insertion tail during an active migration: the base insert plus the
shadow mirror writes, followed by one copy step. -/
theorem insertTailState_resizing (s : KeyArray) (key : Int) (p' : KeyPool) (v : Val)
    (hres : s.resizingEnabled = true) (hcp : s.copyInProgress = true) :
    insertTailState s key p' v =
      KeyArray.continueCopyStep
        { s with pool := p'
                 data := vsetV s.data key v
                 valid := vsetB s.valid key true
                 elementCount := s.elementCount + 1
                 newData := vsetV s.newData key v
                 newValid := vsetB s.newValid key true } := by
  unfold insertTailState
  simp [hres, hcp]

theorem c7_amended_part1 (s : KeyArray) (hoff : s.offset = 0)
    (hres : s.resizingEnabled = false) (hci : s.copyIndex = 0)
    (hnd : s.newData = []) (hnv : s.newValid = []) :
    s.enableDynamicResizing.newData.length = 2 * capOf s.lastKey ∧
    s.enableDynamicResizing.newValid.length = 2 * capOf s.lastKey ∧
    s.enableDynamicResizing.newPool = mkKeyPoolRange (s.lastKey + 1) (2 * s.lastKey + 1) ∧
    s.enableDynamicResizing.copyInProgress = true := by
  unfold KeyArray.enableDynamicResizing
  rw [hres]
  simp only [Bool.false_eq_true, if_false, ite_false]
  have hguard : s.copyIndex = s.offset := by omega
  simp only [hguard, if_true, ite_true, hnd, hnv]
  refine ⟨?_, ?_, ?_, by trivial⟩
  · simp only [listResizeV_length]
    unfold capOf
    omega
  · simp only [listResizeB_length]
    unfold capOf
    omega
  · simp only [hoff]
    congr 1 <;> omega

theorem c7_amended_part2 (s : KeyArray) (v : Val)
    (hres : s.resizingEnabled = true) (hcp : s.copyInProgress = true)
    (hne : s.pool.isEmptyPool = false) (hci0 : 0 ≤ s.copyIndex)
    (hcile : s.copyIndex ≤ s.lastKey)
    (hlnd : capOf s.lastKey ≤ s.newData.length) (hlnv : capOf s.lastKey ≤ s.newValid.length) :
    (s.insert v).2.copyIndex = s.copyIndex + 1 ∧
    (vgetB (s.insert v).2.valid s.copyIndex = true →
      vgetB (s.insert v).2.newValid s.copyIndex = true ∧
      vgetV (s.insert v).2.newData s.copyIndex = vgetV (s.insert v).2.data s.copyIndex) := by
  obtain ⟨key, p', hpop⟩ := pop_of_not_empty hne
  set s2 : KeyArray :=
    { s with pool := p'
             data := vsetV s.data key v
             valid := vsetB s.valid key true
             elementCount := s.elementCount + 1
             newData := vsetV s.newData key v
             newValid := vsetB s.newValid key true } with hs2
  have hins : (s.insert v).2 = s2.continueCopyStep := by
    rw [insert_eq_tail s v hne, insertTail_eq s v key p' hpop,
      insertTailState_resizing s key p' v hres hcp]
  have hstep := continueCopyStep_at s2 (by rw [hs2]; exact hres) (by rw [hs2]; exact hcp)
    (by rw [hs2]; simpa using hcile)
  have h2ci : s2.copyIndex = s.copyIndex := by rw [hs2]
  rw [hins]
  constructor
  · rw [hstep.1, h2ci]
  · intro hv
    rw [hstep.2.1] at hv
    rw [← h2ci] at hv
    have hcopy := hstep.2.2.2.1 hv
    have hlen2 : s.copyIndex.toNat < s2.newValid.length := by
      rw [hs2]
      simp only [vsetB_length]
      unfold capOf at hlnv
      omega
    have hlen3 : s.copyIndex.toNat < s2.newData.length := by
      rw [hs2]
      simp only [vsetV_length]
      unfold capOf at hlnd
      omega
    refine ⟨?_, ?_⟩
    · rw [hcopy.1, h2ci]
      exact vgetB_vsetB_self hci0 hlen2
    · rw [hcopy.2, hstep.2.2.1, h2ci]
      exact vgetV_vsetV_self hci0 hlen3

/-- C7 corrected: the doubled-shadow description of enableDynamicResizing holds
only for offset-0 stores (with a nonzero offset the copyIndex == offset guard
skips shadow preparation entirely, see the counterexample): on an offset-0
store with resizing off and an unarmed shadow, enabling allocates a shadow of
double the current capacity whose allocator manages exactly the new id range
lastKey+1 .. 2*lastKey+1; and while a migration is in progress every insert
served by the active pool advances the copy cursor by exactly one, copying
that slot's value and validity into the shadow. -/
theorem c7_amended :
    (∀ s : KeyArray, s.offset = 0 → s.resizingEnabled = false → s.copyIndex = 0 →
      s.newData = [] → s.newValid = [] →
      s.enableDynamicResizing.newData.length = 2 * capOf s.lastKey ∧
      s.enableDynamicResizing.newValid.length = 2 * capOf s.lastKey ∧
      s.enableDynamicResizing.newPool = mkKeyPoolRange (s.lastKey + 1) (2 * s.lastKey + 1) ∧
      s.enableDynamicResizing.copyInProgress = true) ∧
    (∀ (s : KeyArray) (v : Val), s.resizingEnabled = true → s.copyInProgress = true →
      s.pool.isEmptyPool = false → 0 ≤ s.copyIndex → s.copyIndex ≤ s.lastKey →
      capOf s.lastKey ≤ s.newData.length → capOf s.lastKey ≤ s.newValid.length →
      (s.insert v).2.copyIndex = s.copyIndex + 1 ∧
      (vgetB (s.insert v).2.valid s.copyIndex = true →
        vgetB (s.insert v).2.newValid s.copyIndex = true ∧
        vgetV (s.insert v).2.newData s.copyIndex = vgetV (s.insert v).2.data s.copyIndex)) :=
  ⟨fun s h1 h2 h3 h4 h5 => c7_amended_part1 s h1 h2 h3 h4 h5,
   fun s v h1 h2 h3 h4 h5 h6 h7 => c7_amended_part2 s v h1 h2 h3 h4 h5 h6 h7⟩

theorem c7_witness :
    ((mkKeyArrayLimit 3 "").enableDynamicResizing.newData.length =
       2 * capOf (mkKeyArrayLimit 3 "").lastKey ∧
     (mkKeyArrayLimit 3 "").enableDynamicResizing.newValid.length =
       2 * capOf (mkKeyArrayLimit 3 "").lastKey ∧
     (mkKeyArrayLimit 3 "").enableDynamicResizing.newPool =
       mkKeyPoolRange ((mkKeyArrayLimit 3 "").lastKey + 1)
         (2 * (mkKeyArrayLimit 3 "").lastKey + 1) ∧
     (mkKeyArrayLimit 3 "").enableDynamicResizing.copyInProgress = true) ∧
    ((c7w2.insert 5).2.copyIndex = c7w2.copyIndex + 1 ∧
     (vgetB (c7w2.insert 5).2.valid c7w2.copyIndex = true →
       vgetB (c7w2.insert 5).2.newValid c7w2.copyIndex = true ∧
       vgetV (c7w2.insert 5).2.newData c7w2.copyIndex =
         vgetV (c7w2.insert 5).2.data c7w2.copyIndex)) :=
  ⟨c7_amended.1 (mkKeyArrayLimit 3 "") (by decide) (by decide) (by decide) (by decide)
     (by decide),
   c7_amended.2 c7w2 5 (by decide) (by decide) (by decide) (by decide) (by decide)
     (by decide) (by decide)⟩

/-- C8 counterexample: on a store built with a negative offset the buffered
insert still returns -1, but -1 lies inside the logical key range
[offset, offset + lastKey] and is even a currently valid key, so the sentinel
is not distinguishable from every real key of the store. -/
theorem c8_counterexample :
    c8state.pool.isEmptyPool = true ∧ c8state.resizingEnabled = false ∧
    c8state.queueEnabled = true ∧
    (c8state.insert 4).1 = .ok (-1) ∧
    (c8state.insert 4).2.overflowQueue = [4] ∧
    (c8state.offset ≤ -1 ∧ -1 ≤ c8state.offset + c8state.lastKey) ∧
    c8state.hasKeyB (-1) = true :=
  ⟨by decide, by decide, by decide, by rfl, by decide, by decide, by decide⟩

/-- C8 corrected: when the active store is exhausted, resizing is disabled and
buffering is enabled, insert appends the value to the buffer and returns the
fixed sentinel -1; the sentinel lies outside the store's logical key range
[offset, offset + lastKey] only for stores with a non-negative offset (for
negative offsets -1 can be a real key, see the counterexample). -/
theorem c8_amended (s : KeyArray) (v : Val)
    (hexh : s.pool.isEmptyPool = true) (hres : s.resizingEnabled = false)
    (hq : s.queueEnabled = true) :
    s.insert v = (.ok (-1), { s with overflowQueue := s.overflowQueue ++ [v] }) ∧
    (0 ≤ s.offset → ¬(s.offset ≤ -1 ∧ -1 ≤ s.offset + s.lastKey)) := by
  refine ⟨insert_eq_queue s v hexh hres hq, ?_⟩
  intro h hc
  omega

theorem c8_witness :
    c8w.insert 9 = (.ok (-1), { c8w with overflowQueue := c8w.overflowQueue ++ [9] }) ∧
    (0 ≤ c8w.offset → ¬(c8w.offset ≤ -1 ∧ -1 ≤ c8w.offset + c8w.lastKey)) :=
  c8_amended c8w 9 (by decide) (by decide) (by decide)

/-- Fields of the store that a successful switch fixes or leaves alone. -/
theorem switchedState_frame (t : KeyArray) :
    (switchedState t).overflowQueue = t.overflowQueue ∧
    (switchedState t).lastKey = (t.newData.length : Int) - 1 ∧
    (switchedState t).offset = t.offset ∧
    (switchedState t).resizingEnabled = t.resizingEnabled ∧
    (switchedState t).queueEnabled = t.queueEnabled ∧
    (switchedState t).elementCount = t.elementCount ∧
    (switchedState t).data = t.newData ∧
    (switchedState t).valid = t.newValid ∧
    (switchedState t).pool = t.newPool ∧
    (switchedState t).copyInProgress = true ∧
    (switchedState t).copyIndex = 0 ∧
    (switchedState t).name = t.name :=
  ⟨rfl, rfl, rfl, rfl, rfl, rfl, rfl, rfl, rfl, rfl, rfl, rfl⟩

/-- C2: exhaustion routing precedence of insert.  When the pool is exhausted:
with resizing enabled, insert takes the resize-and-switch path no matter what
the buffer flag is — the buffer is untouched and the store's key bound becomes
the resized one (shadow capacity minus one); with resizing disabled and
buffering enabled, the value is appended to the buffer and nothing else
changes; with both disabled, insert fails PoolExhausted and stores nothing. -/
theorem c2_exhaustion_precedence (s : KeyArray) (v : Val)
    (hexh : s.pool.isEmptyPool = true) :
    (s.resizingEnabled = true →
      (s.insert v).2.overflowQueue = s.overflowQueue ∧
      (s.insert v).2.lastKey = (s.newData.length : Int) - 1) ∧
    (s.resizingEnabled = false → s.queueEnabled = true →
      s.insert v = (.ok (-1), { s with overflowQueue := s.overflowQueue ++ [v] })) ∧
    (s.resizingEnabled = false → s.queueEnabled = false →
      s.insert v = (.error .PoolExhausted, s)) := by
  refine ⟨?_, fun h1 h2 => insert_eq_queue s v hexh h1 h2,
    fun h1 h2 => insert_eq_fail s v hexh h1 h2⟩
  intro hres
  rw [insert_eq_exhaust_resize s v hexh hres]
  have hres1 : s.forceCopy.resizingEnabled = true := (forceCopy_frame s).2.2.1.trans hres
  have hcp1 : s.forceCopy.copyInProgress = false := forceCopy_not_inProgress s hres
  rw [switch_eq_ok s.forceCopy hres1 hcp1]
  simp only
  cases hp : (switchedState s.forceCopy).pool.pop with
  | none =>
    rw [insertTail_eq_error _ v hp]
    refine ⟨?_, ?_⟩
    · rw [(switchedState_frame _).1, (forceCopy_frame s).1]
    · rw [(switchedState_frame _).2.1, (forceCopy_frame s).2.2.2.1]
  | some kp =>
    rw [insertTail_eq _ v kp.1 kp.2 (by rw [hp])]
    refine ⟨?_, ?_⟩
    · rw [(insertTailState_frame _ kp.1 kp.2 v).1, (switchedState_frame _).1,
        (forceCopy_frame s).1]
    · rw [(insertTailState_frame _ kp.1 kp.2 v).2.1, (switchedState_frame _).2.1,
        (forceCopy_frame s).2.2.2.1]

theorem c2_witness :
    ((c2wr.insert 8).2.overflowQueue = c2wr.overflowQueue ∧
     (c2wr.insert 8).2.lastKey = (c2wr.newData.length : Int) - 1) ∧
    (c2wq.insert 8 = (.ok (-1), { c2wq with overflowQueue := c2wq.overflowQueue ++ [8] })) ∧
    (c2w.insert 8 = (.error .PoolExhausted, c2w)) :=
  ⟨(c2_exhaustion_precedence c2wr 8 (by decide)).1 (by decide),
   (c2_exhaustion_precedence c2wq 8 (by decide)).2.1 (by decide) (by decide),
   (c2_exhaustion_precedence c2w 8 (by decide)).2.2 (by decide) (by decide)⟩

theorem baseRemove_eq_error (s : KeyArray) (k : Int) (hh : s.baseHasKey k = false) :
    s.baseRemove k = (.error .KeyNotFound, s) := by
  unfold KeyArray.baseRemove
  rw [if_pos hh]

theorem baseRemove_eq_ok (s : KeyArray) (k : Int) (hh : s.baseHasKey k = true) :
    s.baseRemove k = (.ok (),
      { s with valid := vsetB s.valid k false
               elementCount := s.elementCount - 1
               pool := s.pool.push k }) := by
  unfold KeyArray.baseRemove
  rw [if_neg (by simp [hh])]

/-- C9: failure atomicity of the public operations.  Any failing insert
(resizing off or pool still non-empty — on reachable states where resizing is
enabled the armed shadow pool is never empty, so the switch path cannot fail
midway), any failing remove, at-assignment, swap or switch leaves the whole
store state exactly as it was; reads through at are modelled as pure and
cannot mutate at all. -/
theorem c9_failure_atomicity (s : KeyArray) (v : Val) (k k1 k2 : Int) :
    ((s.resizingEnabled = true → s.newPool.isEmptyPool = false) →
      ∀ e : KErr, (s.insert v).1 = .error e → (s.insert v).2 = s) ∧
    (∀ e : KErr, (s.remove k).1 = .error e → (s.remove k).2 = s) ∧
    (∀ e : KErr, (s.setAt k v).1 = .error e → (s.setAt k v).2 = s) ∧
    (∀ e : KErr, (s.swapE k1 k2).1 = .error e → (s.swapE k1 k2).2 = s) ∧
    (∀ e : KErr, s.switchToResizedData.1 = .error e → s.switchToResizedData.2 = s) := by
  refine ⟨?_, ?_, ?_, ?_, ?_⟩
  · intro hWF e herr
    cases hemp : s.pool.isEmptyPool with
    | false =>
      rw [insert_eq_tail s v hemp] at herr
      obtain ⟨key, p', hpop⟩ := pop_of_not_empty hemp
      rw [insertTail_eq s v key p' hpop] at herr
      simp at herr
    | true =>
      cases hres : s.resizingEnabled with
      | true =>
        have hNP : s.newPool.isEmptyPool = false := hWF hres
        rw [insert_eq_exhaust_resize s v hemp hres] at herr
        have hres1 : s.forceCopy.resizingEnabled = true := (forceCopy_frame s).2.2.1.trans hres
        have hcp1 : s.forceCopy.copyInProgress = false := forceCopy_not_inProgress s hres
        rw [switch_eq_ok s.forceCopy hres1 hcp1] at herr
        have hp2 : (switchedState s.forceCopy).pool.isEmptyPool = false := by
          rw [(switchedState_frame _).2.2.2.2.2.2.2.2.1, (forceCopy_frame s).2.2.2.2.2.2.2.2.2.2.1]
          exact hNP
        obtain ⟨key, p', hpop⟩ := pop_of_not_empty hp2
        dsimp only at herr
        rw [insertTail_eq _ v key p' hpop] at herr
        simp at herr
      | false =>
        cases hq : s.queueEnabled with
        | true =>
          rw [insert_eq_queue s v hemp hres hq] at herr
          simp at herr
        | false =>
          rw [insert_eq_fail s v hemp hres hq]
  · intro e herr
    unfold KeyArray.remove at herr ⊢
    by_cases hr : k < s.offset ∨ k > s.lastKey + s.offset
    · rw [if_pos hr]
    · rw [if_neg hr] at herr ⊢
      dsimp only at herr ⊢
      by_cases hh : s.baseHasKey (k - s.offset) = false
      · rw [baseRemove_eq_error s (k - s.offset) hh]
      · rw [baseRemove_eq_ok s (k - s.offset) (by simpa using hh)] at herr
        simp at herr
  · intro e herr
    unfold KeyArray.setAt at herr ⊢
    by_cases hr : k < s.offset ∨ k > s.lastKey + s.offset
    · rw [if_pos hr]
    · rw [if_neg hr] at herr ⊢
      by_cases hh : s.baseHasKey (k - s.offset) = false
      · rw [if_pos hh]
      · rw [if_neg hh] at herr
        simp at herr
  · intro e herr
    unfold KeyArray.swapE at herr ⊢
    by_cases hr : s.hasKeyB k1 = false ∨ s.hasKeyB k2 = false
    · rw [if_pos hr]
    · rw [if_neg hr] at herr
      simp at herr
  · intro e herr
    by_cases hc : s.resizingEnabled = false ∨ s.copyInProgress = true
    · rw [switch_eq_error s hc]
    · push_neg at hc
      rw [switch_eq_ok s (by simpa using hc.1) (by simpa using hc.2)] at herr
      simp at herr

theorem c9_witness :
    ((mkKeyArrayLimit 1 "").remove 5).2 = mkKeyArrayLimit 1 "" ∧
    (c9wex.insert 3).2 = c9wex ∧
    c9wex.switchToResizedData.2 = c9wex :=
  ⟨(c9_failure_atomicity (mkKeyArrayLimit 1 "") 0 5 0 1).2.1 .InvalidKey (by rfl),
   (c9_failure_atomicity c9wex 3 0 0 1).1 (by decide) .PoolExhausted (by rfl),
   (c9_failure_atomicity c9wex 3 0 0 1).2.2.2.2 .ResizeNotReady (by rfl)⟩

theorem avoids_push (i : Int) (p : KeyPool) (x : Int) (h : avoids i p) : avoids i (p.push x) := by
  unfold KeyPool.push
  split
  · rename_i hc
    refine ⟨h.1, ?_⟩
    intro y hy
    rcases List.mem_cons.mp hy with hy | hy
    · have := h.1
      omega
    · exact h.2 y hy
  · exact h

theorem avoids_pop (i : Int) (p : KeyPool) (k : Int) (q : KeyPool)
    (h : avoids i p) (hp : p.pop = some (k, q)) : i < k ∧ avoids i q := by
  unfold KeyPool.pop at hp
  cases hl : p.pool with
  | cons v rest =>
    rw [hl] at hp
    simp only [Option.some.injEq, Prod.mk.injEq] at hp
    obtain ⟨hk, hq⟩ := hp
    subst hk
    subst hq
    refine ⟨h.2 v (by rw [hl]; exact List.mem_cons_self v rest), h.1, ?_⟩
    intro y hy
    exact h.2 y (by rw [hl]; exact List.mem_cons_of_mem v hy)
  | nil =>
    rw [hl] at hp
    dsimp only at hp
    split at hp
    · simp at hp
    · simp only [Option.some.injEq, Prod.mk.injEq] at hp
      obtain ⟨hk, hq⟩ := hp
      subst hk
      subst hq
      refine ⟨h.1, ⟨?_, ?_⟩⟩
      · show i < p.nextKey + 1
        have := h.1
        omega
      · intro y hy
        simp at hy

/-- Once the pool avoids an id, no base-operation trace ever issues it again. -/
theorem baseIssued_avoids (i : Int) :
    ∀ (ops : List BaseOp) (s : KeyArray), avoids i s.pool → i ∉ baseIssued s ops := by
  intro ops
  induction ops with
  | nil =>
    intro s h
    simp [baseIssued]
  | cons op rest ih =>
    intro s h
    cases op with
    | bput v =>
      unfold baseIssued
      cases hp : s.pool.pop with
      | none =>
        have hb : s.baseInsert v = (.error .PoolExhausted, s) := by
          unfold KeyArray.baseInsert
          rw [hp]
        rw [hb]
        exact ih s h
      | some kp =>
        have hb : s.baseInsert v = (.ok kp.1,
            { s with pool := kp.2
                     data := vsetV s.data kp.1 v
                     valid := vsetB s.valid kp.1 true
                     elementCount := s.elementCount + 1 }) := by
          unfold KeyArray.baseInsert
          rw [hp]
        rw [hb]
        obtain ⟨hik, hq⟩ := avoids_pop i s.pool kp.1 kp.2 h (by rw [hp])
        intro hmem
        rcases List.mem_cons.mp hmem with hmem | hmem
        · omega
        · exact ih _ hq hmem
    | bdel k =>
      unfold baseIssued
      unfold KeyArray.baseRemove
      split
      · exact ih s h
      · exact ih _ (avoids_push i s.pool k h)

/-- Straight insert runs over a frontier-only pool issue consecutive frontier
keys and leave the frontier advanced with the recycle stack still empty. -/
theorem insertRun_fresh : ∀ (vs : List Val) (s : KeyArray) (m M : Int),
    s.pool = ⟨m, M, []⟩ → m + vs.length ≤ M + 1 →
    insertRunKeys s vs = (List.range vs.length).map (fun j : Nat => m + (j : Int)) ∧
    (insertRunState s vs).pool = ⟨m + vs.length, M, []⟩ := by
  intro vs
  induction vs with
  | nil =>
    intro s m M hp hlen
    refine ⟨rfl, ?_⟩
    simpa [insertRunState, baseApply] using hp
  | cons v rest ih =>
    intro s m M hp hlen
    have hpop : s.pool.pop = some (m, ⟨m + 1, M, []⟩) := by
      rw [hp]
      unfold KeyPool.pop
      simp only
      rw [if_neg (by simp at hlen ⊢; omega)]
    have hb : s.baseInsert v = (.ok m,
        { s with pool := (⟨m + 1, M, []⟩ : KeyPool)
                 data := vsetV s.data m v
                 valid := vsetB s.valid m true
                 elementCount := s.elementCount + 1 }) := by
      unfold KeyArray.baseInsert
      rw [hpop]
    have hih := ih ({ s with pool := (⟨m + 1, M, []⟩ : KeyPool)
                             data := vsetV s.data m v
                             valid := vsetB s.valid m true
                             elementCount := s.elementCount + 1 }) (m + 1) M rfl
      (by simp at hlen ⊢; omega)
    constructor
    · unfold insertRunKeys at hih ⊢
      simp only [List.map_cons]
      unfold baseIssued
      rw [hb]
      dsimp only
      rw [hih.1]
      simp only [List.length_cons]
      rw [List.range_succ_eq_map, List.map_cons, List.map_map]
      congr 1
      · push_cast
        omega
      · apply List.map_congr_left
        intro j _
        simp only [Function.comp_apply]
        push_cast
        omega
    · unfold insertRunState at hih ⊢
      simp only [List.map_cons, List.foldl_cons]
      have hstep : baseApply s (BaseOp.bput v) =
          { s with pool := (⟨m + 1, M, []⟩ : KeyPool)
                   data := vsetV s.data m v
                   valid := vsetB s.valid m true
                   elementCount := s.elementCount + 1 } := by
        show (s.baseInsert v).2 = _
        rw [hb]
      rw [hstep, hih.2]
      simp only [List.length_cons]
      congr 1
      push_cast
      omega

/-- C1: KeyAllocator recycling is exact — push(id) stacks id exactly when
frontier ≤ id ≤ maxId and otherwise changes nothing — and consequently, after
inserting n values into a fresh SlotStore (receiving ids 0..n-1) and removing
any id i (necessarily below the frontier), no insert of any later
insert/remove trace ever returns i. -/
theorem c1_recycle_exact :
    (∀ (p : KeyPool) (id : Int),
      (p.nextKey ≤ id ∧ id ≤ p.maxKey → p.push id = { p with pool := id :: p.pool }) ∧
      (¬(p.nextKey ≤ id ∧ id ≤ p.maxKey) → p.push id = p)) ∧
    (∀ (c : Int) (vs : List Val) (i : Int) (ops : List BaseOp),
      (vs.length : Int) ≤ c → 0 ≤ i → i < (vs.length : Int) →
      insertRunKeys (mkBase c) vs = (List.range vs.length).map (fun j : Nat => (j : Int)) ∧
      i ∉ baseIssued ((insertRunState (mkBase c) vs).baseRemove i).2 ops) := by
  constructor
  · intro p id
    constructor
    · intro h
      unfold KeyPool.push
      rw [if_pos (by omega)]
    · intro h
      unfold KeyPool.push
      rw [if_neg (by omega)]
  · intro c vs i ops hlen hi0 hin
    have hc1 : 1 ≤ c := by omega
    have hfresh : (mkBase c).pool = ⟨0, c - 1, []⟩ := by
      unfold mkBase mkKeyPoolRange
      rw [if_neg (by omega)]
    have hrun := insertRun_fresh vs (mkBase c) 0 (c - 1) hfresh (by omega)
    refine ⟨by simpa using hrun.1, ?_⟩
    have hpool : (insertRunState (mkBase c) vs).pool = ⟨(vs.length : Int), c - 1, []⟩ := by
      simpa using hrun.2
    have hav1 : avoids i (insertRunState (mkBase c) vs).pool := by
      rw [hpool]
      exact ⟨by simpa using hin, by intro x hx; simp at hx⟩
    have hav : avoids i ((insertRunState (mkBase c) vs).baseRemove i).2.pool := by
      unfold KeyArray.baseRemove
      split
      · exact hav1
      · exact avoids_push i _ i hav1
    exact baseIssued_avoids i ops _ hav

theorem c1_witness :
    insertRunKeys (mkBase 4) [10, 11, 12] =
      (List.range [10, 11, 12].length).map (fun j : Nat => (j : Int)) ∧
    1 ∉ baseIssued ((insertRunState (mkBase 4) [10, 11, 12]).baseRemove 1).2
        [BaseOp.bput 13, BaseOp.bput 14, BaseOp.bput 15] :=
  c1_recycle_exact.2 4 [10, 11, 12] 1 [BaseOp.bput 13, BaseOp.bput 14, BaseOp.bput 15]
    (by decide) (by decide) (by decide)

/-! Parsing lemmas for the snapshot loader. -/

theorem readInt_cons (n : Int) (rest : List Tok) :
    readIntTok ⟨Tok.tokInt n :: rest, false⟩ = (some n, ⟨rest, false⟩) := rfl

theorem readStr_cons_str (x : String) (rest : List Tok) :
    readStrTok ⟨Tok.tokStr x :: rest, false⟩ = (some x, ⟨rest, false⟩) := rfl

theorem readStr_cons_any (t : Tok) (rest : List Tok) :
    readStrTok ⟨t :: rest, false⟩ = (some (tokSpell t), ⟨rest, false⟩) := by
  cases t <;> rfl

theorem readBool_boolStr (b : Bool) (rest : List Tok) :
    readBoolTok ⟨Tok.tokStr (boolStr b) :: rest, false⟩ = (some b, ⟨rest, false⟩) := by
  cases b <;> rfl

theorem readStr_failed (p : PSt) (h : p.failed = true) : readStrTok p = (none, p) := by
  unfold readStrTok
  rw [if_pos h]

theorem queueLoopF_succ (fuel : Nat) (st : KeyArray) (p : PSt) :
    queueLoopF (fuel + 1) st p =
      (match readIntTok p with
       | (none, p') => (st, p')
       | (some key, p') =>
         queueLoopF fuel { st with overflowQueue := st.overflowQueue ++ [key] } p') := rfl

theorem queueLoop_failed (st : KeyArray) (toks : List Tok) :
    queueLoop st ⟨toks, true⟩ = (st, ⟨toks, true⟩) := by
  unfold queueLoop
  rw [queueLoopF_succ]
  simp [readIntTok]

theorem entriesLoopF_succ (fuel : Nat) (st : KeyArray) (p : PSt) (valueReg : Val) :
    entriesLoopF (fuel + 1) st p valueReg =
      (match readIntTok p with
       | (none, p') => (st, p')
       | (some key, p') =>
         if key = -1 then (st, p')
         else
           let q := readIntTok p'
           let value := match q.1 with
             | some v => v
             | none => 0
           let actualIndex := key - st.offset
           let st' :=
             if 0 ≤ actualIndex ∧ actualIndex < (st.data.length : Int) then
               { st with data := vsetV st.data actualIndex value
                         valid := vsetB st.valid actualIndex true
                         elementCount := st.elementCount + 1 }
             else st
           entriesLoopF fuel st' q.2 value) := rfl

/-- The fuelled entries loop is insensitive to the exact fuel once it exceeds
the number of remaining tokens. -/
theorem entriesLoopF_eq :
    ∀ (n m : Nat) (st : KeyArray) (p : PSt) (reg : Val),
      p.toks.length < n → p.toks.length < m →
      entriesLoopF n st p reg = entriesLoopF m st p reg := by
  intro n
  induction n with
  | zero =>
    intro m st p reg hn hm
    omega
  | succ n ih =>
    intro m st p reg hn hm
    cases m with
    | zero => omega
    | succ m =>
      rw [entriesLoopF_succ, entriesLoopF_succ]
      rcases hrd : readIntTok p with ⟨o, p'⟩
      cases o with
      | none => rfl
      | some k =>
        dsimp only
        by_cases hk1 : k = -1
        · rw [if_pos hk1, if_pos hk1]
        · rw [if_neg hk1, if_neg hk1]
          have h1 := readIntTok_some_len hrd
          have h2 := readIntTok_toks_le p'
          refine ih m _ _ _ ?_ ?_ <;> omega

theorem entriesLoop_stop (st : KeyArray) (x : String) (rest : List Tok) (reg : Val) :
    entriesLoop st ⟨Tok.tokStr x :: rest, false⟩ reg = (st, ⟨Tok.tokStr x :: rest, true⟩) := by
  unfold entriesLoop
  simp only [List.length_cons]
  rw [entriesLoopF_succ]
  simp [readIntTok]

theorem entriesLoop_step (st : KeyArray) (k v : Int) (rest : List Tok) (reg : Val)
    (hk : k ≠ -1) :
    entriesLoop st ⟨Tok.tokInt k :: Tok.tokInt v :: rest, false⟩ reg =
      entriesLoop (storeEntry st (k, v)) ⟨rest, false⟩ v := by
  unfold entriesLoop
  simp only [List.length_cons]
  rw [entriesLoopF_succ]
  rw [readInt_cons]
  dsimp only
  rw [if_neg hk]
  rw [readInt_cons]
  simp only [Option.getD_some]
  exact entriesLoopF_eq (rest.length + 1 + 1) (rest.length + 1) _ _ _
    (by show rest.length < rest.length + 1 + 1; omega)
    (by show rest.length < rest.length + 1; omega)

/-- The entries loop on a well-formed entry token stream (all keys different
from -1) stores every entry in order and stops, with the fail flag set, at the
first non-integer token. -/
theorem entriesLoop_pairs :
    ∀ (ps : List (Int × Int)) (st : KeyArray) (reg : Val) (lbl : String) (rest : List Tok),
      (∀ e ∈ ps, e.1 ≠ -1) →
      entriesLoop st ⟨(ps.flatMap fun e => [Tok.tokInt e.1, Tok.tokInt e.2]) ++
          (Tok.tokStr lbl :: rest), false⟩ reg =
        (ps.foldl storeEntry st, ⟨Tok.tokStr lbl :: rest, true⟩) := by
  intro ps
  induction ps with
  | nil =>
    intro st reg lbl rest h
    have hl : (([] : List (Int × Int)).flatMap fun e => [Tok.tokInt e.1, Tok.tokInt e.2]) ++
        (Tok.tokStr lbl :: rest) = Tok.tokStr lbl :: rest := rfl
    rw [hl]
    exact entriesLoop_stop st lbl rest reg
  | cons e ps ih =>
    intro st reg lbl rest h
    simp only [List.flatMap_cons, List.cons_append, List.append_assoc]
    rw [entriesLoop_step st e.1 e.2 _ reg (h e (List.mem_cons_self e ps))]
    simp only [List.foldl_cons]
    have := ih (storeEntry st (e.1, e.2)) e.2 lbl rest
      (fun x hx => h x (List.mem_cons_of_mem e hx))
    simp only [List.append_assoc] at this
    exact this

theorem pairsOf_eq_upTo (s : KeyArray) : pairsOf s = pairsUpTo s (capOf s.lastKey) := rfl

theorem entryToks_eq_pairs (s : KeyArray) :
    s.entryToks = (pairsOf s).flatMap fun e => [Tok.tokInt e.1, Tok.tokInt e.2] := by
  unfold KeyArray.entryToks pairsOf
  generalize List.range (capOf s.lastKey) = l
  induction l with
  | nil => rfl
  | cons a t ih =>
    simp only [List.flatMap_cons, List.filterMap_cons]
    by_cases hv : s.valid.getD a false = true
    · simp only [hv, if_true, ite_true, List.flatMap_cons]
      rw [ih]
    · simp only [hv, Bool.false_eq_true, if_false, ite_false]
      rw [ih]
      simp [hv]

theorem mem_pairsUpTo {s : KeyArray} {n : Nat} {e : Int × Int} (h : e ∈ pairsUpTo s n) :
    ∃ i : Nat, i < n ∧ s.valid.getD i false = true ∧ e.1 = (i : Int) + s.offset := by
  unfold pairsUpTo at h
  obtain ⟨i, hi, hmap⟩ := List.mem_filterMap.mp h
  by_cases hv : s.valid.getD i false = true
  · rw [if_pos hv] at hmap
    cases hmap
    exact ⟨i, List.mem_range.mp hi, hv, rfl⟩
  · rw [if_neg hv] at hmap
    cases hmap

/-- Folding the parsed entries of the first n slots over a clean state of the
right sizes restores exactly those slots (and touches nothing else). -/
theorem foldl_storeEntry_spec (src : KeyArray) :
    ∀ (n : Nat) (st : KeyArray),
      st.offset = src.offset →
      st.data.length = capOf src.lastKey →
      st.valid.length = capOf src.lastKey →
      n ≤ capOf src.lastKey →
      ((pairsUpTo src n).foldl storeEntry st).offset = st.offset ∧
      ((pairsUpTo src n).foldl storeEntry st).data.length = st.data.length ∧
      ((pairsUpTo src n).foldl storeEntry st).valid.length = st.valid.length ∧
      ((pairsUpTo src n).foldl storeEntry st).pool = st.pool ∧
      ((pairsUpTo src n).foldl storeEntry st).overflowQueue = st.overflowQueue ∧
      ((pairsUpTo src n).foldl storeEntry st).lastKey = st.lastKey ∧
      (∀ j : Nat,
        (j < n → src.valid.getD j false = true →
          ((pairsUpTo src n).foldl storeEntry st).valid.getD j false = true ∧
          ((pairsUpTo src n).foldl storeEntry st).data.getD j 0 = src.data.getD j 0) ∧
        (n ≤ j ∨ src.valid.getD j false = false →
          ((pairsUpTo src n).foldl storeEntry st).valid.getD j false = st.valid.getD j false ∧
          ((pairsUpTo src n).foldl storeEntry st).data.getD j 0 = st.data.getD j 0)) := by
  intro n
  induction n with
  | zero =>
    intro st h1 h2 h3 h4
    refine ⟨rfl, rfl, rfl, rfl, rfl, rfl, ?_⟩
    intro j
    refine ⟨fun hj => absurd hj (by omega), fun _ => ⟨rfl, rfl⟩⟩
  | succ n ih =>
    intro st h1 h2 h3 h4
    have hsplit : pairsUpTo src (n + 1) = pairsUpTo src n ++
        (if src.valid.getD n false then [(((n : Int) + src.offset), src.data.getD n 0)]
         else []) := by
      unfold pairsUpTo
      rw [List.range_succ, List.filterMap_append]
      congr 1
      simp only [List.filterMap_cons, List.filterMap_nil]
      by_cases hv2 : src.valid.getD n false = true
      · rw [if_pos hv2, if_pos hv2]
      · rw [if_neg hv2, if_neg hv2]
    have hihn := ih st h1 h2 h3 (by omega)
    rw [hsplit, List.foldl_append]
    set r := (pairsUpTo src n).foldl storeEntry st with hr
    by_cases hv : src.valid.getD n false = true
    · rw [if_pos hv]
      simp only [List.foldl_cons, List.foldl_nil]
      have hcond : 0 ≤ ((n : Int) + src.offset) - r.offset ∧
          ((n : Int) + src.offset) - r.offset < (r.data.length : Int) := by
        rw [hihn.1, h1, hihn.2.1, h2]
        constructor
        · omega
        · have : (n : Int) < (capOf src.lastKey : Int) := by exact_mod_cast h4
          omega
      have hidx : ((n : Int) + src.offset) - r.offset = (n : Int) := by
        rw [hihn.1, h1]
        omega
      unfold storeEntry
      rw [if_pos hcond, hidx]
      have hnn : (0 : Int) ≤ (n : Int) := by omega
      have hnat : ((n : Int)).toNat = n := by omega
      refine ⟨hihn.1, ?_, ?_, hihn.2.2.2.1, hihn.2.2.2.2.1, hihn.2.2.2.2.2.1, ?_⟩
      · simp only [vsetV_length]
        exact hihn.2.1
      · simp only [vsetB_length]
        exact hihn.2.2.1
      · intro j
        constructor
        · intro hj hvj
          by_cases hjn : j = n
          · subst hjn
            unfold vsetV vsetB
            rw [if_pos hnn, if_pos hnn, hnat]
            constructor
            · rw [getD_set_self]
              rw [hihn.2.2.1, h3]
              omega
            · rw [getD_set_self]
              rw [hihn.2.1, h2]
              omega
          · have hj' : j < n := by omega
            unfold vsetV vsetB
            rw [if_pos hnn, if_pos hnn, hnat]
            rw [getD_set_ne _ _ _ _ _ (by omega), getD_set_ne _ _ _ _ _ (by omega)]
            exact (hihn.2.2.2.2.2.2 j).1 hj' hvj
        · intro hj
          have hjn : j ≠ n := by
            rcases hj with hj | hj
            · omega
            · intro hc
              subst hc
              rw [hv] at hj
              cases hj
          unfold vsetV vsetB
          rw [if_pos hnn, if_pos hnn, hnat]
          rw [getD_set_ne _ _ _ _ _ (by omega), getD_set_ne _ _ _ _ _ (by omega)]
          refine (hihn.2.2.2.2.2.2 j).2 ?_
          rcases hj with hj | hj
          · left
            omega
          · right
            exact hj
    · rw [if_neg hv]
      simp only [List.foldl_nil]
      refine ⟨hihn.1, hihn.2.1, hihn.2.2.1, hihn.2.2.2.1, hihn.2.2.2.2.1,
        hihn.2.2.2.2.2.1, ?_⟩
      intro j
      constructor
      · intro hj hvj
        have hj' : j < n := by
          by_cases hjn : j = n
          · subst hjn
            rw [hvj] at hv
            simp at hv
          · omega
        exact (hihn.2.2.2.2.2.2 j).1 hj' hvj
      · intro hj
        refine (hihn.2.2.2.2.2.2 j).2 ?_
        rcases hj with hj | hj
        · by_cases hjn : j = n
          · subst hjn
            right
            simpa using hv
          · left
            omega
        · right
          exact hj

set_option maxHeartbeats 2000000 in
/-- Loading its own snapshot leaves a store in the state reached by the prefix
field updates followed by the parsed-entry fold; the queue entries written
after the queueEntries: label are never consumed because the failed entry read
poisons the stream. -/
theorem loadToks_serialize (src tgt : KeyArray) (t : Tok)
    (hn : nameToks src.name = [t])
    (hkm : ∀ e ∈ pairsOf src, e.1 ≠ -1) :
    tgt.loadToks src.serialize =
      (pairsOf src).foldl storeEntry
        { tgt with name := tokSpell t
                   offset := src.offset
                   lastKey := src.lastKey
                   data := listResizeV tgt.data (capOf src.lastKey)
                   valid := listResizeB tgt.valid (capOf src.lastKey)
                   elementCount := 0
                   pool := mkKeyPoolRange src.offset src.lastKey
                   resizingEnabled := src.resizingEnabled
                   queueEnabled := src.queueEnabled } := by
  unfold KeyArray.loadToks KeyArray.serialize
  rw [hn]
  simp only [List.append_assoc, List.cons_append, List.nil_append, List.singleton_append]
  simp only [readStr_cons_str, readStr_cons_any, readInt_cons, readBool_boolStr]
  rw [entryToks_eq_pairs]
  rw [entriesLoop_pairs (pairsOf src) _ 0 "queueEntries:" _ hkm]
  rw [readStr_failed _ rfl]
  rw [queueLoop_failed]
  rfl

theorem getD_append_lt {α : Type} (l1 l2 : List α) (i : Nat) (d : α) (h : i < l1.length) :
    (l1 ++ l2).getD i d = l1.getD i d := by
  simp [List.getD_eq_getElem?_getD, List.getElem?_append, h]

theorem getD_append_ge {α : Type} (l1 l2 : List α) (i : Nat) (d : α) (h : l1.length ≤ i) :
    (l1 ++ l2).getD i d = l2.getD (i - l1.length) d := by
  simp only [List.getD_eq_getElem?_getD, List.getElem?_append]
  rw [if_neg (by omega)]

theorem getD_take (l : List Bool) (n i : Nat) (h : i < n) :
    (l.take n).getD i false = l.getD i false := by
  simp only [List.getD_eq_getElem?_getD, List.getElem?_take]
  rw [if_pos h]

theorem getD_replicate_false (n i : Nat) : (List.replicate n false).getD i false = false := by
  rw [List.getD_eq_getElem?_getD, List.getElem?_replicate]
  split <;> rfl

/-- Resizing an all-false validity vector yields an all-false vector. -/
theorem listResizeB_allFalse (l : List Bool) (n : Nat)
    (h : ∀ i : Nat, l.getD i false = false) (j : Nat) :
    (listResizeB l n).getD j false = false := by
  unfold listResizeB
  by_cases hj : j < (l.take n).length
  · rw [getD_append_lt _ _ _ _ hj]
    have hjn : j < n := by
      simp at hj
      omega
    rw [getD_take _ _ _ hjn]
    exact h j
  · rw [getD_append_ge _ _ _ _ (by omega)]
    exact getD_replicate_false _ _

theorem vgetB_eq_getD {l : List Bool} {i : Int} (h : 0 ≤ i) :
    vgetB l i = l.getD i.toNat false := by
  unfold vgetB
  rw [if_pos h]

theorem vgetV_eq_getD {l : List Val} {i : Int} (h : 0 ≤ i) :
    vgetV l i = l.getD i.toNat 0 := by
  unfold vgetV
  rw [if_pos h]

/-- C3 counterexample, two failure modes of the save-then-load round trip.
First, the buffer contents are never reproduced: the saved store's buffer
holds [8]; after loading its snapshot into a fresh store the buffer is empty,
because the entries loop ends by a failed extraction at the queueEntries:
label, the fail bit stays set, and the queue entries are never read.  Second,
a name containing whitespace derails the whole positional parse: the loader
reads back only the first word of the saved name a b, the stray word b lands
in the label slot, the offset extraction then hits the offset: label and
fails, so neither lastKey nor any stored pair of the source is reproduced. -/
theorem c3_counterexample :
    (c3src.overflowQueue = [8] ∧
     ((mkKeyArrayLimit 1 "").loadToks c3src.serialize).overflowQueue ≠ c3src.overflowQueue) ∧
    (c3srcW.hasKeyB 0 = true ∧
     ((mkKeyArrayLimit 2 "").loadToks c3srcW.serialize).lastKey ≠ c3srcW.lastKey ∧
     ((mkKeyArrayLimit 2 "").loadToks c3srcW.serialize).hasKeyB 0 ≠ c3srcW.hasKeyB 0) := by
  refine ⟨⟨?_, ?_⟩, ?_, ?_, ?_⟩
  all_goals decide

/-- C3 corrected: loading a snapshot into a clean store (no valid slots, empty
buffer — a freshly constructed one) reproduces the offset, the lastKey, every
(logicalKey, value) pair, and resets the allocator to the fresh sorted range
[offset, lastKey] with an empty recycle stack; but the buffer contents are NOT
reproduced: the loaded store's buffer stays empty, the saved queue entries are
dropped.  The reproduction additionally needs the written name to be a single
word (the loader reads exactly one word back, see the counterexample) and no
valid logical key to equal -1, since the loader treats a -1 key as the
end-of-entries separator. -/
theorem c3_amended (src tgt : KeyArray)
    (hn : (nameToks src.name).length = 1)
    (hs1 : src.data.length = capOf src.lastKey)
    (hs2 : src.valid.length = capOf src.lastKey)
    (hk : ∀ i : Nat, i < capOf src.lastKey → src.valid.getD i false = true →
      (i : Int) + src.offset ≠ -1)
    (ht1 : ∀ i : Nat, tgt.valid.getD i false = false)
    (ht2 : tgt.overflowQueue = []) :
    (tgt.loadToks src.serialize).offset = src.offset ∧
    (tgt.loadToks src.serialize).lastKey = src.lastKey ∧
    (∀ k : Int, (tgt.loadToks src.serialize).hasKeyB k = src.hasKeyB k) ∧
    (∀ k : Int, src.hasKeyB k = true →
      (tgt.loadToks src.serialize).atE k = src.atE k) ∧
    (tgt.loadToks src.serialize).pool = mkKeyPoolRange src.offset src.lastKey ∧
    (tgt.loadToks src.serialize).overflowQueue = [] := by
  have hkm : ∀ e ∈ pairsOf src, e.1 ≠ -1 := by
    intro e he
    rw [pairsOf_eq_upTo] at he
    obtain ⟨i, hi, hv, he1⟩ := mem_pairsUpTo he
    rw [he1]
    exact hk i hi hv
  obtain ⟨t, hnt⟩ := List.length_eq_one.mp hn
  rw [loadToks_serialize src tgt t hnt hkm, pairsOf_eq_upTo]
  set st0 : KeyArray :=
    { tgt with name := tokSpell t
               offset := src.offset
               lastKey := src.lastKey
               data := listResizeV tgt.data (capOf src.lastKey)
               valid := listResizeB tgt.valid (capOf src.lastKey)
               elementCount := 0
               pool := mkKeyPoolRange src.offset src.lastKey
               resizingEnabled := src.resizingEnabled
               queueEnabled := src.queueEnabled } with hst0
  have hoff0 : st0.offset = src.offset := by rw [hst0]
  have hd0 : st0.data.length = capOf src.lastKey := by
    rw [hst0]
    exact listResizeV_length _ _
  have hv0 : st0.valid.length = capOf src.lastKey := by
    rw [hst0]
    exact listResizeB_length _ _
  have hall0 : ∀ j : Nat, st0.valid.getD j false = false := by
    intro j
    rw [hst0]
    exact listResizeB_allFalse tgt.valid _ ht1 j
  have spec := foldl_storeEntry_spec src (capOf src.lastKey) st0 hoff0 hd0 hv0 (le_refl _)
  have hFoff : ((pairsUpTo src (capOf src.lastKey)).foldl storeEntry st0).offset = src.offset :=
    spec.1.trans hoff0
  have hFlk : ((pairsUpTo src (capOf src.lastKey)).foldl storeEntry st0).lastKey = src.lastKey :=
    spec.2.2.2.2.2.1.trans (by rw [hst0])
  have hslot : ∀ j : Nat, j < capOf src.lastKey →
      ((pairsUpTo src (capOf src.lastKey)).foldl storeEntry st0).valid.getD j false =
        src.valid.getD j false ∧
      (src.valid.getD j false = true →
        ((pairsUpTo src (capOf src.lastKey)).foldl storeEntry st0).data.getD j 0 =
          src.data.getD j 0) := by
    intro j hj
    by_cases hsv : src.valid.getD j false = true
    · have h1 := (spec.2.2.2.2.2.2 j).1 hj hsv
      exact ⟨h1.1.trans hsv.symm, fun _ => h1.2⟩
    · have h2 := (spec.2.2.2.2.2.2 j).2 (Or.inr (by simpa using hsv))
      simp only [Bool.not_eq_true] at hsv
      refine ⟨?_, fun hc => by rw [hc] at hsv; cases hsv⟩
      rw [h2.1, hall0 j, hsv]
  have hlen : ((pairsUpTo src (capOf src.lastKey)).foldl storeEntry st0).valid.length =
      capOf src.lastKey := spec.2.2.1.trans hv0
  refine ⟨hFoff, hFlk, ?_, ?_, spec.2.2.2.1.trans (by rw [hst0]),
    spec.2.2.2.2.1.trans ((by rw [hst0] : st0.overflowQueue = tgt.overflowQueue).trans ht2)⟩
  · intro k
    unfold KeyArray.hasKeyB KeyArray.baseHasKey
    rw [hFoff, hFlk]
    by_cases hr : k < src.offset ∨ k > src.lastKey + src.offset
    · rw [if_pos hr, if_pos hr]
    · rw [if_neg hr, if_neg hr]
      push_neg at hr
      have h0 : 0 ≤ k - src.offset := by omega
      have h1 : k - src.offset ≤ src.lastKey := by omega
      have hjn : (k - src.offset).toNat < capOf src.lastKey := by
        unfold capOf
        omega
      rw [vgetB_eq_getD h0, vgetB_eq_getD h0]
      rw [(hslot _ hjn).1]
  · intro k hkv
    unfold KeyArray.hasKeyB KeyArray.baseHasKey at hkv
    unfold KeyArray.atE KeyArray.baseAt KeyArray.baseHasKey
    by_cases hr : k < src.offset ∨ k > src.lastKey + src.offset
    · rw [if_pos hr] at hkv
      cases hkv
    · rw [if_neg hr] at hkv
      push_neg at hr
      have h0 : 0 ≤ k - src.offset := by omega
      have h1 : k - src.offset ≤ src.lastKey := by omega
      have hjn : (k - src.offset).toNat < capOf src.lastKey := by
        unfold capOf
        omega
      have hsv : src.valid.getD (k - src.offset).toNat false = true := by
        rw [vgetB_eq_getD h0] at hkv
        simp only [Bool.and_eq_true, decide_eq_true_eq] at hkv
        exact hkv.2
      rw [if_neg (by rw [hFoff, hFlk]; exact (by omega : ¬(k < src.offset ∨ k > src.lastKey + src.offset))),
        if_neg (by omega : ¬(k < src.offset ∨ k > src.lastKey + src.offset))]
      rw [hFoff]
      have hvF : vgetB ((pairsUpTo src (capOf src.lastKey)).foldl storeEntry st0).valid
          (k - src.offset) = true := by
        rw [vgetB_eq_getD h0, (hslot _ hjn).1]
        exact hsv
      rw [hFlk]
      have hvS : vgetB src.valid (k - src.offset) = true := by
        rw [vgetB_eq_getD h0]
        exact hsv
      simp only [hvF, hvS, decide_eq_true_eq]
      rw [if_neg (by simp [h0, h1, hvF]), if_neg (by simp [h0, h1, hvS])]
      rw [vgetV_eq_getD h0, vgetV_eq_getD h0]
      rw [(hslot _ hjn).2 hsv]

theorem c3_witness :
    ((mkKeyArrayLimit 2 "x").loadToks c3src.serialize).offset = c3src.offset ∧
    ((mkKeyArrayLimit 2 "x").loadToks c3src.serialize).lastKey = c3src.lastKey ∧
    (∀ k : Int, ((mkKeyArrayLimit 2 "x").loadToks c3src.serialize).hasKeyB k =
      c3src.hasKeyB k) ∧
    (∀ k : Int, c3src.hasKeyB k = true →
      ((mkKeyArrayLimit 2 "x").loadToks c3src.serialize).atE k = c3src.atE k) ∧
    ((mkKeyArrayLimit 2 "x").loadToks c3src.serialize).pool =
      mkKeyPoolRange c3src.offset c3src.lastKey ∧
    ((mkKeyArrayLimit 2 "x").loadToks c3src.serialize).overflowQueue = [] :=
  c3_amended c3src (mkKeyArrayLimit 2 "x") (by decide) (by decide) (by decide) (by decide)
    (by intro i; exact getD_replicate_false _ i) (by decide)

/-! Preservation of the store invariant by the public operations. -/

theorem continueCopyStep_id (s : KeyArray)
    (h : s.resizingEnabled = false ∨ s.copyInProgress = false) :
    s.continueCopyStep = s := by
  unfold KeyArray.continueCopyStep
  rw [if_pos h]

/-- Whether the copy is still in progress after one step of an active migration. -/
theorem continueCopyStep_cip (t : KeyArray)
    (hres : t.resizingEnabled = true) (hcp : t.copyInProgress = true)
    (hle : t.copyIndex ≤ t.lastKey) :
    (t.continueCopyStep.copyInProgress = false ↔ t.lastKey < t.copyIndex + 1) := by
  unfold KeyArray.continueCopyStep
  rw [hres, hcp]
  by_cases hv : vgetB t.valid t.copyIndex = true
  all_goals simp [hle, hv]
  all_goals by_cases hdone : t.lastKey < t.copyIndex + 1
  all_goals simp [hdone, hcp]

theorem capOf_of_nonneg {lk : Int} (h : 0 ≤ lk) : (capOf lk : Int) = lk + 1 := by
  unfold capOf
  omega

theorem continueCopyStep_inv {s : KeyArray} (hinv : StoreInv s) :
    StoreInv s.continueCopyStep := by
  by_cases hg : s.resizingEnabled = true ∧ s.copyInProgress = true
  case neg =>
    rw [continueCopyStep_id s (by
      by_cases hr : s.resizingEnabled = true
      · by_cases hc : s.copyInProgress = true
        · exact absurd ⟨hr, hc⟩ hg
        · exact Or.inr (by simpa using hc)
      · exact Or.inl (by simpa using hr))]
    exact hinv
  case pos =>
    obtain ⟨hres, hcp⟩ := hg
    have sh := hinv.shOn hres
    have hle := sh.cirun hcp
    have hat := continueCopyStep_at s hres hcp hle
    have hfr := continueCopyStep_frame s
    have hcip := continueCopyStep_cip s hres hcp hle
    have hci0 := sh.cinn
    refine ⟨?_, ?_, ?_, ?_, ?_, ?_, ?_, ?_, ?_, ?_, ?_⟩
    · rw [hfr.2.2.2.2.2.2.2.2.1]
      exact hinv.off0
    · rw [hfr.2.1]
      exact hinv.lk0
    · rw [hfr.2.2.2.2.1, hfr.2.1]
      exact hinv.dlen
    · rw [hfr.2.2.2.2.2.1, hfr.2.1]
      exact hinv.vlen
    · rw [hfr.2.2.2.2.2.2.2.1, hfr.2.2.2.2.2.1]
      exact hinv.cnt
    · rw [hfr.2.2.2.2.2.2.1, hfr.2.1]
      exact hinv.pmax
    · rw [hfr.2.2.2.2.2.2.1]
      exact hinv.pnn
    · rw [hfr.2.2.2.2.2.2.1]
      exact hinv.pstk
    · intro j hj1 hj2
      rw [hfr.2.2.2.2.2.1]
      rw [hfr.2.2.2.2.2.2.1] at hj1 hj2
      exact hinv.availFr j hj1 hj2
    · intro hres'
      refine ⟨?_, ?_, ?_, ?_, ?_, ?_, ?_, ?_, ?_⟩
      · rw [hfr.2.2.2.1, hfr.2.1]
        exact sh.ndlen
      · rw [hfr.2.2.2.2.2.2.2.2.2.2.2.1, hfr.2.1]
        exact sh.nvlen
      · rw [hfr.2.2.2.2.2.2.2.2.2.2.1, hfr.2.1]
        exact sh.np
      · rw [hat.1]
        omega
      · intro hcf
        rw [hat.1, hfr.2.1]
        exact hcip.mp hcf
      · intro hct
        rw [hat.1, hfr.2.1]
        have hnl : ¬ s.lastKey < s.copyIndex + 1 := by
          intro hc
          rw [hcip.mpr hc] at hct
          exact Bool.noConfusion hct
        omega
      · intro i h0 hlt hle2 hvi
        rw [hfr.2.1] at hle2
        rw [hfr.2.2.2.2.2.1] at hvi
        rw [hat.1] at hlt
        by_cases hic : i = s.copyIndex
        · subst hic
          rw [(hat.2.2.2.1 hvi).1]
          exact vgetB_vsetB_self h0 (by
            rw [sh.nvlen]
            unfold capOf
            omega)
        · by_cases hv : vgetB s.valid s.copyIndex = true
          · rw [(hat.2.2.2.1 hv).1]
            rw [vgetB_vsetB_ne (fun hc => hic hc.symm)]
            exact sh.mirror1 i h0 (by omega) hle2 hvi
          · rw [(hat.2.2.2.2 (by simpa using hv)).1]
            exact sh.mirror1 i h0 (by omega) hle2 hvi
      · intro i h0 hle2 hvi
        rw [hfr.2.1] at hle2
        rw [hfr.2.2.2.2.2.1]
        by_cases hv : vgetB s.valid s.copyIndex = true
        · rw [(hat.2.2.2.1 hv).1] at hvi
          by_cases hic : i = s.copyIndex
          · subst hic
            exact hv
          · rw [vgetB_vsetB_ne (fun hc => hic hc.symm)] at hvi
            exact sh.mirror2 i h0 hle2 hvi
        · rw [(hat.2.2.2.2 (by simpa using hv)).1] at hvi
          exact sh.mirror2 i h0 hle2 hvi
      · intro i hge
        rw [hfr.2.1] at hge
        by_cases hv : vgetB s.valid s.copyIndex = true
        · rw [(hat.2.2.2.1 hv).1]
          unfold vsetB
          rw [if_pos hci0]
          rw [getD_set_ne _ _ _ _ _ (by
            unfold capOf at hge
            omega)]
          exact sh.newreg i hge
        · rw [(hat.2.2.2.2 (by simpa using hv)).1]
          exact sh.newreg i hge
    · intro hres'
      rw [hfr.2.2.1] at hres'
      rw [hres] at hres'
      exact Bool.noConfusion hres'

theorem continueCopyStep_vals {s : KeyArray} (hinv : StoreInv s) (hsv : ShadowVals s) :
    ShadowVals s.continueCopyStep := by
  by_cases hg : s.resizingEnabled = true ∧ s.copyInProgress = true
  case neg =>
    rw [continueCopyStep_id s (by
      by_cases hr : s.resizingEnabled = true
      · by_cases hc : s.copyInProgress = true
        · exact absurd ⟨hr, hc⟩ hg
        · exact Or.inr (by simpa using hc)
      · exact Or.inl (by simpa using hr))]
    exact hsv
  case pos =>
    obtain ⟨hres, hcp⟩ := hg
    have sh := hinv.shOn hres
    have hle := sh.cirun hcp
    have hat := continueCopyStep_at s hres hcp hle
    have hfr := continueCopyStep_frame s
    intro i h0 hlt hle2 hvi
    rw [hfr.2.1] at hle2
    rw [hfr.2.2.2.2.2.1] at hvi
    rw [hat.1] at hlt
    rw [hfr.2.2.2.2.1]
    by_cases hic : i = s.copyIndex
    · subst hic
      rw [(hat.2.2.2.1 hvi).2]
      exact vgetV_vsetV_self h0 (by
        rw [sh.ndlen]
        unfold capOf
        omega)
    · by_cases hv : vgetB s.valid s.copyIndex = true
      · rw [(hat.2.2.2.1 hv).2]
        rw [vgetV_vsetV_ne (fun hc => hic hc.symm)]
        exact hsv i h0 (by omega) hle2 hvi
      · rw [(hat.2.2.2.2 (by simpa using hv)).2]
        exact hsv i h0 (by omega) hle2 hvi

theorem forceCopy_inv {s : KeyArray} (hinv : StoreInv s) : StoreInv s.forceCopy :=
  forceCopy_invariant StoreInv (fun _ _ _ hp => continueCopyStep_inv hp) s hinv

theorem forceCopy_inv_vals {s : KeyArray} (hinv : StoreInv s) (hsv : ShadowVals s) :
    StoreInv s.forceCopy ∧ ShadowVals s.forceCopy :=
  forceCopy_invariant (fun t => StoreInv t ∧ ShadowVals t)
    (fun _ _ _ hp => ⟨continueCopyStep_inv hp.1, continueCopyStep_vals hp.1 hp.2⟩) s ⟨hinv, hsv⟩

theorem mkKeyPoolRange_le {v1 v2 : Int} (h : v1 ≤ v2) :
    mkKeyPoolRange v1 v2 = ⟨v1, v2, []⟩ := by
  unfold mkKeyPoolRange
  rw [if_neg (by omega)]

/-- Under the invariant the pool is frontier-only, so a non-empty pool pops
exactly the frontier key. -/
theorem inv_pop {s : KeyArray} (hinv : StoreInv s) (hne : s.pool.isEmptyPool = false) :
    s.pool.pop = some (s.pool.nextKey, { s.pool with nextKey := s.pool.nextKey + 1 }) ∧
    s.pool.nextKey ≤ s.lastKey := by
  have hstk := hinv.pstk
  unfold KeyPool.isEmptyPool at hne
  rw [hstk] at hne
  simp at hne
  constructor
  · unfold KeyPool.pop
    rw [hstk]
    rw [if_neg (by omega)]
    simp [hstk]
  · rw [← hinv.pmax]
    omega

/-- The invariant ignores the buffer flag and contents. -/
theorem storeInv_queue_irrel {s : KeyArray} (q : List Val) (b : Bool) (hinv : StoreInv s) :
    StoreInv { s with overflowQueue := q, queueEnabled := b } :=
  ⟨hinv.off0, hinv.lk0, hinv.dlen, hinv.vlen, hinv.cnt, hinv.pmax, hinv.pnn, hinv.pstk,
   hinv.availFr,
   fun h =>
     let sh := hinv.shOn h
     ⟨sh.ndlen, sh.nvlen, sh.np, sh.cinn, sh.cidone, sh.cirun, sh.mirror1, sh.mirror2, sh.newreg⟩,
   fun h => hinv.shOff h⟩

theorem shadowVals_queue_irrel {s : KeyArray} (q : List Val) (b : Bool) (hsv : ShadowVals s) :
    ShadowVals { s with overflowQueue := q, queueEnabled := b } :=
  fun i h0 hlt hle hv => hsv i h0 hlt hle hv

theorem insertTailState_nores (s : KeyArray) (key : Int) (p' : KeyPool) (v : Val)
    (hres : s.resizingEnabled = false) :
    insertTailState s key p' v =
      { s with pool := p'
               data := vsetV s.data key v
               valid := vsetB s.valid key true
               elementCount := s.elementCount + 1 } := by
  unfold insertTailState
  simp [hres]

theorem insertTailState_res_nocp (s : KeyArray) (key : Int) (p' : KeyPool) (v : Val)
    (hres : s.resizingEnabled = true) (hcp : s.copyInProgress = false) :
    insertTailState s key p' v =
      { s with pool := p'
               data := vsetV s.data key v
               valid := vsetB s.valid key true
               elementCount := s.elementCount + 1
               newData := vsetV s.newData key v
               newValid := vsetB s.newValid key true } := by
  unfold insertTailState
  simp [hres, hcp]

/-- The insertion tail fed the frontier key preserves the store invariant. -/
theorem insertTailState_inv {s : KeyArray} (v : Val) (hinv : StoreInv s)
    (hne : s.pool.isEmptyPool = false) :
    StoreInv (insertTailState s s.pool.nextKey { s.pool with nextKey := s.pool.nextKey + 1 } v) := by
  have hk0 : 0 ≤ s.pool.nextKey := hinv.pnn
  have hkle : s.pool.nextKey ≤ s.lastKey := (inv_pop hinv hne).2
  have hklt : (s.pool.nextKey).toNat < s.valid.length := by
    rw [hinv.vlen]
    unfold capOf
    omega
  have hvget : vgetB s.valid s.pool.nextKey = false :=
    hinv.availFr s.pool.nextKey (le_refl _) (by rw [hinv.pmax]; exact hkle)
  have hvgetD : s.valid.getD (s.pool.nextKey).toNat false = false := by
    unfold vgetB at hvget
    rw [if_pos hk0] at hvget
    exact hvget
  have hcnt : s.elementCount + 1 = countTrue (vsetB s.valid s.pool.nextKey true) := by
    unfold vsetB
    rw [if_pos hk0, countTrue_set_true _ _ hklt hvgetD, hinv.cnt]
  have havail : ∀ j : Int, s.pool.nextKey + 1 ≤ j → j ≤ s.pool.maxKey →
      vgetB (vsetB s.valid s.pool.nextKey true) j = false := by
    intro j hj1 hj2
    rw [vgetB_vsetB_ne (by omega)]
    exact hinv.availFr j (by omega) hj2
  by_cases hres : s.resizingEnabled = true
  case neg =>
    have hres' : s.resizingEnabled = false := by simpa using hres
    rw [insertTailState_nores s _ _ v hres']
    refine ⟨hinv.off0, hinv.lk0, (vsetV_length _ _ _).trans hinv.dlen,
      (vsetB_length _ _ _).trans hinv.vlen, hcnt, hinv.pmax, by
        show 0 ≤ s.pool.nextKey + 1
        omega, hinv.pstk, ?_, ?_, ?_⟩
    · intro j hj1 hj2
      exact havail j hj1 hj2
    · intro h
      have h2 : s.resizingEnabled = true := h
      rw [hres'] at h2
      exact Bool.noConfusion h2
    · intro _
      exact hinv.shOff hres'
  case pos =>
    have sh := hinv.shOn hres
    have hkltN : (s.pool.nextKey).toNat < s.newValid.length := by
      rw [sh.nvlen]
      unfold capOf
      omega
    have hM2 : StoreInv
        { s with pool := { s.pool with nextKey := s.pool.nextKey + 1 }
                 data := vsetV s.data s.pool.nextKey v
                 valid := vsetB s.valid s.pool.nextKey true
                 elementCount := s.elementCount + 1
                 newData := vsetV s.newData s.pool.nextKey v
                 newValid := vsetB s.newValid s.pool.nextKey true } := by
      refine ⟨hinv.off0, hinv.lk0, (vsetV_length _ _ _).trans hinv.dlen,
        (vsetB_length _ _ _).trans hinv.vlen, hcnt, hinv.pmax, by
          show 0 ≤ s.pool.nextKey + 1
          omega, hinv.pstk, ?_, ?_, ?_⟩
      · intro j hj1 hj2
        exact havail j hj1 hj2
      · intro _
        refine ⟨(vsetV_length _ _ _).trans sh.ndlen, (vsetB_length _ _ _).trans sh.nvlen,
          sh.np, sh.cinn, sh.cidone, sh.cirun, ?_, ?_, ?_⟩
        · intro i h0 hlt hle hvi
          have hlt' : i < s.copyIndex := hlt
          have hle' : i ≤ s.lastKey := hle
          have hvi' : vgetB (vsetB s.valid s.pool.nextKey true) i = true := hvi
          show vgetB (vsetB s.newValid s.pool.nextKey true) i = true
          by_cases hik : i = s.pool.nextKey
          · subst hik
            exact vgetB_vsetB_self hk0 hkltN
          · rw [vgetB_vsetB_ne (fun hc => hik hc.symm)]
            rw [vgetB_vsetB_ne (fun hc => hik hc.symm)] at hvi'
            exact sh.mirror1 i h0 hlt' hle' hvi'
        · intro i h0 hle hvi
          have hle' : i ≤ s.lastKey := hle
          have hvi' : vgetB (vsetB s.newValid s.pool.nextKey true) i = true := hvi
          show vgetB (vsetB s.valid s.pool.nextKey true) i = true
          by_cases hik : i = s.pool.nextKey
          · subst hik
            exact vgetB_vsetB_self hk0 hklt
          · rw [vgetB_vsetB_ne (fun hc => hik hc.symm)]
            rw [vgetB_vsetB_ne (fun hc => hik hc.symm)] at hvi'
            exact sh.mirror2 i h0 hle' hvi'
        · intro i hge
          have hge' : capOf s.lastKey ≤ i := hge
          show (vsetB s.newValid s.pool.nextKey true).getD i false = false
          unfold vsetB
          rw [if_pos hk0]
          rw [getD_set_ne _ _ _ _ _ (by
            unfold capOf at hge'
            omega)]
          exact sh.newreg i hge'
      · intro h
        have h2 : s.resizingEnabled = false := h
        rw [hres] at h2
        exact Bool.noConfusion h2
    by_cases hcp : s.copyInProgress = true
    · rw [insertTailState_resizing s _ _ v hres hcp]
      exact continueCopyStep_inv hM2
    · rw [insertTailState_res_nocp s _ _ v hres (by simpa using hcp)]
      exact hM2

/-- With value agreement added, the insertion tail preserves it too. -/
theorem insertTailState_inv_vals {s : KeyArray} (v : Val) (hinv : StoreInv s)
    (hne : s.pool.isEmptyPool = false) (hsv : ShadowVals s) :
    ShadowVals (insertTailState s s.pool.nextKey { s.pool with nextKey := s.pool.nextKey + 1 } v) := by
  have hk0 : 0 ≤ s.pool.nextKey := hinv.pnn
  have hkle : s.pool.nextKey ≤ s.lastKey := (inv_pop hinv hne).2
  have hklt : (s.pool.nextKey).toNat < s.valid.length := by
    rw [hinv.vlen]
    unfold capOf
    omega
  have hkltD : (s.pool.nextKey).toNat < s.data.length := by
    rw [hinv.dlen]
    unfold capOf
    omega
  have hvget : vgetB s.valid s.pool.nextKey = false :=
    hinv.availFr s.pool.nextKey (le_refl _) (by rw [hinv.pmax]; exact hkle)
  have hvgetD : s.valid.getD (s.pool.nextKey).toNat false = false := by
    unfold vgetB at hvget
    rw [if_pos hk0] at hvget
    exact hvget
  have hcnt : s.elementCount + 1 = countTrue (vsetB s.valid s.pool.nextKey true) := by
    unfold vsetB
    rw [if_pos hk0, countTrue_set_true _ _ hklt hvgetD, hinv.cnt]
  have havail : ∀ j : Int, s.pool.nextKey + 1 ≤ j → j ≤ s.pool.maxKey →
      vgetB (vsetB s.valid s.pool.nextKey true) j = false := by
    intro j hj1 hj2
    rw [vgetB_vsetB_ne (by omega)]
    exact hinv.availFr j (by omega) hj2
  by_cases hres : s.resizingEnabled = true
  case neg =>
    have hres' : s.resizingEnabled = false := by simpa using hres
    obtain ⟨-, -, -, hci0⟩ := hinv.shOff hres'
    rw [insertTailState_nores s _ _ v hres']
    intro i h0 hlt _ _
    have hlt' : i < s.copyIndex := hlt
    rw [hci0] at hlt'
    omega
  case pos =>
    have sh := hinv.shOn hres
    have hkltN : (s.pool.nextKey).toNat < s.newValid.length := by
      rw [sh.nvlen]
      unfold capOf
      omega
    have hkltND : (s.pool.nextKey).toNat < s.newData.length := by
      rw [sh.ndlen]
      unfold capOf
      omega
    have hM2 : StoreInv
        { s with pool := { s.pool with nextKey := s.pool.nextKey + 1 }
                 data := vsetV s.data s.pool.nextKey v
                 valid := vsetB s.valid s.pool.nextKey true
                 elementCount := s.elementCount + 1
                 newData := vsetV s.newData s.pool.nextKey v
                 newValid := vsetB s.newValid s.pool.nextKey true } := by
      refine ⟨hinv.off0, hinv.lk0, (vsetV_length _ _ _).trans hinv.dlen,
        (vsetB_length _ _ _).trans hinv.vlen, hcnt, hinv.pmax, by
          show 0 ≤ s.pool.nextKey + 1
          omega, hinv.pstk, ?_, ?_, ?_⟩
      · intro j hj1 hj2
        exact havail j hj1 hj2
      · intro _
        refine ⟨(vsetV_length _ _ _).trans sh.ndlen, (vsetB_length _ _ _).trans sh.nvlen,
          sh.np, sh.cinn, sh.cidone, sh.cirun, ?_, ?_, ?_⟩
        · intro i h0 hlt hle hvi
          have hlt' : i < s.copyIndex := hlt
          have hle' : i ≤ s.lastKey := hle
          have hvi' : vgetB (vsetB s.valid s.pool.nextKey true) i = true := hvi
          show vgetB (vsetB s.newValid s.pool.nextKey true) i = true
          by_cases hik : i = s.pool.nextKey
          · subst hik
            exact vgetB_vsetB_self hk0 hkltN
          · rw [vgetB_vsetB_ne (fun hc => hik hc.symm)]
            rw [vgetB_vsetB_ne (fun hc => hik hc.symm)] at hvi'
            exact sh.mirror1 i h0 hlt' hle' hvi'
        · intro i h0 hle hvi
          have hle' : i ≤ s.lastKey := hle
          have hvi' : vgetB (vsetB s.newValid s.pool.nextKey true) i = true := hvi
          show vgetB (vsetB s.valid s.pool.nextKey true) i = true
          by_cases hik : i = s.pool.nextKey
          · subst hik
            exact vgetB_vsetB_self hk0 hklt
          · rw [vgetB_vsetB_ne (fun hc => hik hc.symm)]
            rw [vgetB_vsetB_ne (fun hc => hik hc.symm)] at hvi'
            exact sh.mirror2 i h0 hle' hvi'
        · intro i hge
          have hge' : capOf s.lastKey ≤ i := hge
          show (vsetB s.newValid s.pool.nextKey true).getD i false = false
          unfold vsetB
          rw [if_pos hk0]
          rw [getD_set_ne _ _ _ _ _ (by
            unfold capOf at hge'
            omega)]
          exact sh.newreg i hge'
      · intro h
        have h2 : s.resizingEnabled = false := h
        rw [hres] at h2
        exact Bool.noConfusion h2
    have hM2v : ShadowVals
        { s with pool := { s.pool with nextKey := s.pool.nextKey + 1 }
                 data := vsetV s.data s.pool.nextKey v
                 valid := vsetB s.valid s.pool.nextKey true
                 elementCount := s.elementCount + 1
                 newData := vsetV s.newData s.pool.nextKey v
                 newValid := vsetB s.newValid s.pool.nextKey true } := by
      intro i h0 hlt hle hvi
      have hlt' : i < s.copyIndex := hlt
      have hle' : i ≤ s.lastKey := hle
      have hvi' : vgetB (vsetB s.valid s.pool.nextKey true) i = true := hvi
      show vgetV (vsetV s.newData s.pool.nextKey v) i = vgetV (vsetV s.data s.pool.nextKey v) i
      by_cases hik : i = s.pool.nextKey
      · subst hik
        rw [vgetV_vsetV_self hk0 hkltND, vgetV_vsetV_self hk0 hkltD]
      · rw [vgetV_vsetV_ne (fun hc => hik hc.symm), vgetV_vsetV_ne (fun hc => hik hc.symm)]
        rw [vgetB_vsetB_ne (fun hc => hik hc.symm)] at hvi'
        exact hsv i h0 hlt' hle' hvi'
    by_cases hcp : s.copyInProgress = true
    · rw [insertTailState_resizing s _ _ v hres hcp]
      exact continueCopyStep_vals hM2 hM2v
    · rw [insertTailState_res_nocp s _ _ v hres (by simpa using hcp)]
      exact hM2v

/-- The shadow fields the successful switch installs (the second arming). -/
theorem switchedState_shadow (t : KeyArray) :
    (switchedState t).newData =
      listResizeV [] (capOf (t.offset + ((t.newData.length : Int) - 1 + 1 - t.offset) * 2 - 1)) ∧
    (switchedState t).newValid =
      listResizeB [] (capOf (t.offset + ((t.newData.length : Int) - 1 + 1 - t.offset) * 2 - 1)) ∧
    (switchedState t).newPool =
      mkKeyPoolRange ((t.newData.length : Int) - 1 + 1 - t.offset)
        ((t.offset + ((t.newData.length : Int) - 1 + 1 - t.offset) * 2 - 1) - t.offset) :=
  ⟨rfl, rfl, rfl⟩

/-- A completed-copy switch preserves the invariant and hands over a non-empty pool. -/
theorem switchedState_inv {t : KeyArray} (hinv : StoreInv t)
    (hres : t.resizingEnabled = true) (hcp : t.copyInProgress = false) :
    StoreInv (switchedState t) ∧ (switchedState t).pool.isEmptyPool = false := by
  have sh := hinv.shOn hres
  have hdone : t.lastKey < t.copyIndex := sh.cidone hcp
  have hlk := hinv.lk0
  have hcap : (capOf t.lastKey : Int) = t.lastKey + 1 := capOf_of_nonneg hlk
  have hnd : t.newData.length = 2 * capOf t.lastKey := sh.ndlen
  have hnv : t.newValid.length = 2 * capOf t.lastKey := sh.nvlen
  have hndI : (t.newData.length : Int) = 2 * (capOf t.lastKey : Int) := by
    rw [hnd]
    push_cast
    ring
  have hcnt : countTrue t.newValid = countTrue t.valid := by
    apply countTrue_eq_of_pointwise t.valid t.newValid (capOf t.lastKey) hinv.vlen (by omega)
    · intro j hj
      have hj0 : (0 : Int) ≤ (j : Int) := by omega
      have hjle : (j : Int) ≤ t.lastKey := by omega
      cases hvj : t.valid.getD j false
      · by_cases hnvj : t.newValid.getD j false = true
        · have h2 := sh.mirror2 (j : Int) hj0 hjle (by
            rw [vgetB_eq_getD hj0, Int.toNat_natCast]
            exact hnvj)
          rw [vgetB_eq_getD hj0, Int.toNat_natCast] at h2
          rw [hvj] at h2
          exact Bool.noConfusion h2
        · simpa using hnvj
      · have h1 := sh.mirror1 (j : Int) hj0 (by omega) hjle (by
          rw [vgetB_eq_getD hj0, Int.toNat_natCast]
          exact hvj)
        rw [vgetB_eq_getD hj0, Int.toNat_natCast] at h1
        exact h1
    · intro j hge
      exact sh.newreg j hge
  have F := switchedState_frame t
  have hS := switchedState_shadow t
  rw [hinv.off0] at hS
  constructor
  · refine ⟨?_, ?_, ?_, ?_, ?_, ?_, ?_, ?_, ?_, ?_, ?_⟩
    · rw [F.2.2.1]
      exact hinv.off0
    · rw [F.2.1]
      omega
    · rw [F.2.2.2.2.2.2.1, F.2.1]
      unfold capOf
      omega
    · rw [F.2.2.2.2.2.2.2.1, F.2.1]
      unfold capOf
      omega
    · rw [F.2.2.2.2.2.1, F.2.2.2.2.2.2.2.1, hcnt]
      exact hinv.cnt
    · rw [F.2.2.2.2.2.2.2.2.1, sh.np, F.2.1]
      show 2 * t.lastKey + 1 = (t.newData.length : Int) - 1
      omega
    · rw [F.2.2.2.2.2.2.2.2.1, sh.np]
      show 0 ≤ t.lastKey + 1
      omega
    · rw [F.2.2.2.2.2.2.2.2.1, sh.np]
    · intro j hj1 hj2
      rw [F.2.2.2.2.2.2.2.2.1, sh.np] at hj1
      have hj1' : t.lastKey + 1 ≤ j := hj1
      rw [F.2.2.2.2.2.2.2.1]
      rw [vgetB_eq_getD (by omega)]
      exact sh.newreg j.toNat (by
        unfold capOf
        omega)
    · intro _
      refine ⟨?_, ?_, ?_, ?_, ?_, ?_, ?_, ?_, ?_⟩
      · rw [hS.1, listResizeV_length, F.2.1]
        unfold capOf
        omega
      · rw [hS.2.1, listResizeB_length, F.2.1]
        unfold capOf
        omega
      · rw [hS.2.2, F.2.1]
        rw [mkKeyPoolRange_le (by omega)]
        simp only [KeyPool.mk.injEq]
        refine ⟨by ring, by ring, trivial⟩
      · rw [F.2.2.2.2.2.2.2.2.2.2.1]
      · intro hcf
        rw [F.2.2.2.2.2.2.2.2.2.1] at hcf
        exact Bool.noConfusion hcf
      · intro _
        rw [F.2.2.2.2.2.2.2.2.2.2.1, F.2.1]
        omega
      · intro i h0 hlt hle hvi
        rw [F.2.2.2.2.2.2.2.2.2.2.1] at hlt
        exact absurd hlt (by omega)
      · intro i h0 hle hvi
        rw [hS.2.1] at hvi
        have hfalse : vgetB (listResizeB []
            (capOf (0 + ((t.newData.length : Int) - 1 + 1 - 0) * 2 - 1))) i = false := by
          rw [vgetB_eq_getD h0]
          exact listResizeB_allFalse [] _ (by intro m; rfl) _
        rw [hfalse] at hvi
        exact Bool.noConfusion hvi
      · intro i hge
        rw [hS.2.1]
        exact listResizeB_allFalse [] _ (by intro m; rfl) i
    · intro h
      rw [F.2.2.2.1, hres] at h
      exact Bool.noConfusion h
  · rw [F.2.2.2.2.2.2.2.2.1, sh.np]
    unfold KeyPool.isEmptyPool
    simp
    omega

/-- Right after a switch the copy cursor is 0, so value agreement holds vacuously. -/
theorem switchedState_vals (t : KeyArray) : ShadowVals (switchedState t) := by
  intro i h0 hlt hle hv
  rw [(switchedState_frame t).2.2.2.2.2.2.2.2.2.2.1] at hlt
  exact absurd hlt (by omega)

theorem insertTail_res (s : KeyArray) (v : Val) :
    (s.insertTail v).2.resizingEnabled = s.resizingEnabled := by
  cases hpop : s.pool.pop with
  | none => rw [insertTail_eq_error s v hpop]
  | some kp =>
    obtain ⟨key, p'⟩ := kp
    rw [insertTail_eq s v key p' hpop]
    exact (insertTailState_frame s key p' v).2.2.2.1

theorem insert_res (s : KeyArray) (v : Val) :
    (s.insert v).2.resizingEnabled = s.resizingEnabled := by
  by_cases hemp : s.pool.isEmptyPool = true
  · by_cases hres : s.resizingEnabled = true
    · rw [insert_eq_exhaust_resize s v hemp hres]
      have hres1 : s.forceCopy.resizingEnabled = true := (forceCopy_frame s).2.2.1.trans hres
      have hcp1 : s.forceCopy.copyInProgress = false := forceCopy_not_inProgress s hres
      rw [switch_eq_ok _ hres1 hcp1]
      show ((switchedState s.forceCopy).insertTail v).2.resizingEnabled = _
      rw [insertTail_res]
      rw [(switchedState_frame _).2.2.2.1, (forceCopy_frame s).2.2.1]
    · have hres' : s.resizingEnabled = false := by simpa using hres
      by_cases hq : s.queueEnabled = true
      · rw [insert_eq_queue s v hemp hres' hq]
      · rw [insert_eq_fail s v hemp hres' (by simpa using hq)]
  · have hne : s.pool.isEmptyPool = false := by simpa using hemp
    rw [insert_eq_tail s v hne]
    exact insertTail_res s v

theorem insert_inv {s : KeyArray} (v : Val) (hinv : StoreInv s) :
    StoreInv (s.insert v).2 := by
  by_cases hemp : s.pool.isEmptyPool = true
  · by_cases hres : s.resizingEnabled = true
    · rw [insert_eq_exhaust_resize s v hemp hres]
      have hfinv := forceCopy_inv hinv
      have hres1 : s.forceCopy.resizingEnabled = true := (forceCopy_frame s).2.2.1.trans hres
      have hcp1 : s.forceCopy.copyInProgress = false := forceCopy_not_inProgress s hres
      rw [switch_eq_ok _ hres1 hcp1]
      show StoreInv ((switchedState s.forceCopy).insertTail v).2
      obtain ⟨huinv, hune⟩ := switchedState_inv hfinv hres1 hcp1
      obtain ⟨hpop, -⟩ := inv_pop huinv hune
      rw [insertTail_eq _ v _ _ hpop]
      exact insertTailState_inv v huinv hune
    · have hres' : s.resizingEnabled = false := by simpa using hres
      by_cases hq : s.queueEnabled = true
      · rw [insert_eq_queue s v hemp hres' hq]
        exact storeInv_queue_irrel (s.overflowQueue ++ [v]) s.queueEnabled hinv
      · rw [insert_eq_fail s v hemp hres' (by simpa using hq)]
        exact hinv
  · have hne : s.pool.isEmptyPool = false := by simpa using hemp
    rw [insert_eq_tail s v hne]
    obtain ⟨hpop, -⟩ := inv_pop hinv hne
    rw [insertTail_eq _ v _ _ hpop]
    exact insertTailState_inv v hinv hne

theorem insert_vals {s : KeyArray} (v : Val) (hinv : StoreInv s) (hsv : ShadowVals s) :
    ShadowVals (s.insert v).2 := by
  by_cases hemp : s.pool.isEmptyPool = true
  · by_cases hres : s.resizingEnabled = true
    · rw [insert_eq_exhaust_resize s v hemp hres]
      have hfinv := forceCopy_inv hinv
      have hres1 : s.forceCopy.resizingEnabled = true := (forceCopy_frame s).2.2.1.trans hres
      have hcp1 : s.forceCopy.copyInProgress = false := forceCopy_not_inProgress s hres
      rw [switch_eq_ok _ hres1 hcp1]
      show ShadowVals ((switchedState s.forceCopy).insertTail v).2
      obtain ⟨huinv, hune⟩ := switchedState_inv hfinv hres1 hcp1
      obtain ⟨hpop, -⟩ := inv_pop huinv hune
      rw [insertTail_eq _ v _ _ hpop]
      exact insertTailState_inv_vals v huinv hune (switchedState_vals s.forceCopy)
    · have hres' : s.resizingEnabled = false := by simpa using hres
      by_cases hq : s.queueEnabled = true
      · rw [insert_eq_queue s v hemp hres' hq]
        exact shadowVals_queue_irrel (s.overflowQueue ++ [v]) s.queueEnabled hsv
      · rw [insert_eq_fail s v hemp hres' (by simpa using hq)]
        exact hsv
  · have hne : s.pool.isEmptyPool = false := by simpa using hemp
    rw [insert_eq_tail s v hne]
    obtain ⟨hpop, -⟩ := inv_pop hinv hne
    rw [insertTail_eq _ v _ _ hpop]
    exact insertTailState_inv_vals v hinv hne hsv

theorem remove_eq_ok (s : KeyArray) (k : Int)
    (hrng : ¬(k < s.offset ∨ k > s.lastKey + s.offset))
    (hh : s.baseHasKey (k - s.offset) = true) :
    s.remove k = (.ok (),
      if s.resizingEnabled then
        { s with valid := vsetB s.valid (k - s.offset) false
                 elementCount := s.elementCount - 1
                 pool := s.pool.push (k - s.offset)
                 newValid := vsetB s.newValid (k - s.offset) false }
      else
        { s with valid := vsetB s.valid (k - s.offset) false
                 elementCount := s.elementCount - 1
                 pool := s.pool.push (k - s.offset) }) := by
  unfold KeyArray.remove
  rw [if_neg hrng]
  dsimp only
  rw [baseRemove_eq_ok s _ hh]

theorem remove_inv {s : KeyArray} (k : Int) (hinv : StoreInv s) :
    StoreInv (s.remove k).2 := by
  by_cases hrng : k < s.offset ∨ k > s.lastKey + s.offset
  · unfold KeyArray.remove
    rw [if_pos hrng]
    exact hinv
  · by_cases hh : s.baseHasKey (k - s.offset) = true
    case neg =>
      unfold KeyArray.remove
      rw [if_neg hrng]
      dsimp only
      rw [baseRemove_eq_error s _ (by simpa using hh)]
      exact hinv
    case pos =>
      rw [remove_eq_ok s k hrng hh]
      unfold KeyArray.baseHasKey at hh
      simp only [Bool.and_eq_true, decide_eq_true_eq] at hh
      obtain ⟨⟨ha0, hale⟩, hav⟩ := hh
      have haltV : (k - s.offset).toNat < s.valid.length := by
        rw [hinv.vlen]
        unfold capOf
        omega
      have havD : s.valid.getD (k - s.offset).toNat false = true := by
        rw [vgetB_eq_getD ha0] at hav
        exact hav
      have hpush : s.pool.push (k - s.offset) = s.pool := by
        unfold KeyPool.push
        rw [if_neg]
        intro ⟨hc1, hc2⟩
        have := hinv.availFr (k - s.offset) hc1 hc2
        rw [this] at hav
        exact Bool.noConfusion hav
      have hcnt2 := countTrue_set_false s.valid (k - s.offset).toNat havD
      have hcnt' : s.elementCount - 1 = countTrue (vsetB s.valid (k - s.offset) false) := by
        unfold vsetB
        rw [if_pos ha0, hcnt2.1, hinv.cnt]
      have havail' : ∀ j : Int, s.pool.nextKey ≤ j → j ≤ s.pool.maxKey →
          vgetB (vsetB s.valid (k - s.offset) false) j = false := by
        intro j hj1 hj2
        by_cases hjk : j = k - s.offset
        · subst hjk
          exact vgetB_vsetB_self ha0 haltV
        · rw [vgetB_vsetB_ne (fun hc => hjk hc.symm)]
          exact hinv.availFr j hj1 hj2
      by_cases hres : s.resizingEnabled = true
      · rw [if_pos hres]
        have sh := hinv.shOn hres
        have haltN : (k - s.offset).toNat < s.newValid.length := by
          rw [sh.nvlen]
          unfold capOf
          omega
        refine ⟨hinv.off0, hinv.lk0, hinv.dlen, (vsetB_length _ _ _).trans hinv.vlen, hcnt',
          ?_, ?_, ?_, ?_, ?_, ?_⟩
        · show (s.pool.push (k - s.offset)).maxKey = s.lastKey
          rw [hpush]
          exact hinv.pmax
        · show 0 ≤ (s.pool.push (k - s.offset)).nextKey
          rw [hpush]
          exact hinv.pnn
        · show (s.pool.push (k - s.offset)).pool = []
          rw [hpush]
          exact hinv.pstk
        · intro j hj1 hj2
          have hj1' : (s.pool.push (k - s.offset)).nextKey ≤ j := hj1
          have hj2' : j ≤ (s.pool.push (k - s.offset)).maxKey := hj2
          rw [hpush] at hj1' hj2'
          exact havail' j hj1' hj2'
        · intro _
          refine ⟨sh.ndlen, (vsetB_length _ _ _).trans sh.nvlen, sh.np, sh.cinn,
            sh.cidone, sh.cirun, ?_, ?_, ?_⟩
          · intro i h0 hlt hle hvi
            have hlt' : i < s.copyIndex := hlt
            have hle' : i ≤ s.lastKey := hle
            have hvi' : vgetB (vsetB s.valid (k - s.offset) false) i = true := hvi
            show vgetB (vsetB s.newValid (k - s.offset) false) i = true
            by_cases hik : i = k - s.offset
            · subst hik
              rw [vgetB_vsetB_self ha0 haltV] at hvi'
              exact Bool.noConfusion hvi'
            · rw [vgetB_vsetB_ne (fun hc => hik hc.symm)]
              rw [vgetB_vsetB_ne (fun hc => hik hc.symm)] at hvi'
              exact sh.mirror1 i h0 hlt' hle' hvi'
          · intro i h0 hle hvi
            have hle' : i ≤ s.lastKey := hle
            have hvi' : vgetB (vsetB s.newValid (k - s.offset) false) i = true := hvi
            show vgetB (vsetB s.valid (k - s.offset) false) i = true
            by_cases hik : i = k - s.offset
            · subst hik
              rw [vgetB_vsetB_self ha0 haltN] at hvi'
              exact Bool.noConfusion hvi'
            · rw [vgetB_vsetB_ne (fun hc => hik hc.symm)]
              rw [vgetB_vsetB_ne (fun hc => hik hc.symm)] at hvi'
              exact sh.mirror2 i h0 hle' hvi'
          · intro i hge
            have hge' : capOf s.lastKey ≤ i := hge
            show (vsetB s.newValid (k - s.offset) false).getD i false = false
            unfold vsetB
            rw [if_pos ha0]
            rw [getD_set_ne _ _ _ _ _ (by
              unfold capOf at hge'
              omega)]
            exact sh.newreg i hge'
        · intro h
          have h2 : s.resizingEnabled = false := h
          rw [hres] at h2
          exact Bool.noConfusion h2
      · have hres' : s.resizingEnabled = false := by simpa using hres
        rw [if_neg hres]
        refine ⟨hinv.off0, hinv.lk0, hinv.dlen, (vsetB_length _ _ _).trans hinv.vlen, hcnt',
          ?_, ?_, ?_, ?_, ?_, ?_⟩
        · show (s.pool.push (k - s.offset)).maxKey = s.lastKey
          rw [hpush]
          exact hinv.pmax
        · show 0 ≤ (s.pool.push (k - s.offset)).nextKey
          rw [hpush]
          exact hinv.pnn
        · show (s.pool.push (k - s.offset)).pool = []
          rw [hpush]
          exact hinv.pstk
        · intro j hj1 hj2
          have hj1' : (s.pool.push (k - s.offset)).nextKey ≤ j := hj1
          have hj2' : j ≤ (s.pool.push (k - s.offset)).maxKey := hj2
          rw [hpush] at hj1' hj2'
          exact havail' j hj1' hj2'
        · intro h
          have h2 : s.resizingEnabled = true := h
          rw [hres'] at h2
          exact Bool.noConfusion h2
        · intro _
          exact hinv.shOff hres'

theorem setAt_inv {s : KeyArray} (k : Int) (v : Val) (hinv : StoreInv s) :
    StoreInv (s.setAt k v).2 := by
  unfold KeyArray.setAt
  by_cases h1 : k < s.offset ∨ k > s.lastKey + s.offset
  · rw [if_pos h1]
    exact hinv
  · rw [if_neg h1]
    by_cases h2 : s.baseHasKey (k - s.offset) = false
    · rw [if_pos h2]
      exact hinv
    · rw [if_neg h2]
      exact ⟨hinv.off0, hinv.lk0, (vsetV_length _ _ _).trans hinv.dlen, hinv.vlen, hinv.cnt,
        hinv.pmax, hinv.pnn, hinv.pstk, hinv.availFr,
        fun h =>
          let sh := hinv.shOn h
          ⟨sh.ndlen, sh.nvlen, sh.np, sh.cinn, sh.cidone, sh.cirun, sh.mirror1, sh.mirror2,
           sh.newreg⟩,
        fun h => hinv.shOff h⟩

theorem swap_inv {s : KeyArray} (k1 k2 : Int) (hinv : StoreInv s) :
    StoreInv (s.swapE k1 k2).2 := by
  unfold KeyArray.swapE
  by_cases h1 : s.hasKeyB k1 = false ∨ s.hasKeyB k2 = false
  · rw [if_pos h1]
    exact hinv
  · rw [if_neg h1]
    exact ⟨hinv.off0, hinv.lk0,
      (vsetV_length _ _ _).trans ((vsetV_length _ _ _).trans hinv.dlen), hinv.vlen, hinv.cnt,
      hinv.pmax, hinv.pnn, hinv.pstk, hinv.availFr,
      fun h =>
        let sh := hinv.shOn h
        ⟨sh.ndlen, sh.nvlen, sh.np, sh.cinn, sh.cidone, sh.cirun, sh.mirror1, sh.mirror2,
         sh.newreg⟩,
      fun h => hinv.shOff h⟩

theorem clear_inv {s : KeyArray} (hinv : StoreInv s) (hres : s.resizingEnabled = false) :
    StoreInv s.clear := by
  unfold KeyArray.clear KeyArray.baseClear
  refine ⟨hinv.off0, hinv.lk0, ?_, ?_, ?_, ?_, ?_, ?_, ?_, ?_, ?_⟩
  · show (List.replicate (capOf s.lastKey) (0 : Val)).length = capOf s.lastKey
    exact List.length_replicate _ _
  · show (List.replicate (capOf s.lastKey) false).length = capOf s.lastKey
    exact List.length_replicate _ _
  · show 0 = countTrue (List.replicate (capOf s.lastKey) false)
    exact (countTrue_replicate _).symm
  · show (mkKeyPoolRange 0 s.lastKey).maxKey = s.lastKey
    rw [mkKeyPoolRange_le hinv.lk0]
  · show 0 ≤ (mkKeyPoolRange 0 s.lastKey).nextKey
    rw [mkKeyPoolRange_le hinv.lk0]
  · show (mkKeyPoolRange 0 s.lastKey).pool = []
    rw [mkKeyPoolRange_le hinv.lk0]
  · intro j _ _
    show vgetB (List.replicate (capOf s.lastKey) false) j = false
    exact vgetB_replicate _ _
  · intro h
    have h2 : s.resizingEnabled = true := h
    rw [hres] at h2
    exact Bool.noConfusion h2
  · intro _
    exact ⟨rfl, rfl, rfl, rfl⟩

theorem enable_eq (s : KeyArray) (hres : s.resizingEnabled = false)
    (hci : s.copyIndex = 0) (hoff : s.offset = 0) :
    s.enableDynamicResizing =
      { s with resizingEnabled := true
               newData := listResizeV s.newData
                 (capOf (s.offset + (s.lastKey + 1 - s.offset) * 2 - 1))
               newValid := listResizeB s.newValid
                 (capOf (s.offset + (s.lastKey + 1 - s.offset) * 2 - 1))
               newPool := mkKeyPoolRange (s.lastKey + 1 - s.offset)
                 ((s.offset + (s.lastKey + 1 - s.offset) * 2 - 1) - s.offset)
               copyInProgress := true } := by
  unfold KeyArray.enableDynamicResizing
  rw [hres]
  simp only [Bool.false_eq_true, if_false, ite_false]
  rw [if_pos (by
    show s.copyIndex = s.offset
    rw [hci, hoff])]

theorem enable_inv {s : KeyArray} (hinv : StoreInv s) : StoreInv s.enableDynamicResizing := by
  by_cases hres : s.resizingEnabled = true
  · have : s.enableDynamicResizing = s := by
      unfold KeyArray.enableDynamicResizing
      rw [hres]
      simp
    rw [this]
    exact hinv
  · have hres' : s.resizingEnabled = false := by simpa using hres
    obtain ⟨hnd, hnv, hcp, hci⟩ := hinv.shOff hres'
    rw [enable_eq s hres' hci hinv.off0, hinv.off0, hnd, hnv]
    have hlk := hinv.lk0
    refine ⟨rfl, hinv.lk0, hinv.dlen, hinv.vlen, hinv.cnt, hinv.pmax, hinv.pnn,
      hinv.pstk, hinv.availFr, ?_, ?_⟩
    · intro _
      refine ⟨?_, ?_, ?_, ?_, ?_, ?_, ?_, ?_, ?_⟩
      · show (listResizeV [] (capOf (0 + (s.lastKey + 1 - 0) * 2 - 1))).length =
          2 * capOf s.lastKey
        rw [listResizeV_length]
        unfold capOf
        omega
      · show (listResizeB [] (capOf (0 + (s.lastKey + 1 - 0) * 2 - 1))).length =
          2 * capOf s.lastKey
        rw [listResizeB_length]
        unfold capOf
        omega
      · show mkKeyPoolRange (s.lastKey + 1 - 0) ((0 + (s.lastKey + 1 - 0) * 2 - 1) - 0) =
          ⟨s.lastKey + 1, 2 * s.lastKey + 1, []⟩
        rw [mkKeyPoolRange_le (by omega)]
        simp only [KeyPool.mk.injEq]
        refine ⟨by ring, by ring, trivial⟩
      · show 0 ≤ s.copyIndex
        rw [hci]
      · intro hcf
        have hcf' : true = false := hcf
        exact Bool.noConfusion hcf'
      · intro _
        show s.copyIndex ≤ s.lastKey
        rw [hci]
        exact hlk
      · intro i h0 hlt hle hvi
        have hlt' : i < s.copyIndex := hlt
        rw [hci] at hlt'
        exact absurd hlt' (by omega)
      · intro i h0 hle hvi
        have hvi' : vgetB (listResizeB [] (capOf (0 + (s.lastKey + 1 - 0) * 2 - 1))) i =
            true := hvi
        rw [vgetB_eq_getD h0, listResizeB_allFalse [] _ (by intro m; rfl)] at hvi'
        exact Bool.noConfusion hvi'
      · intro i hge
        show (listResizeB [] (capOf (0 + (s.lastKey + 1 - 0) * 2 - 1))).getD i false = false
        exact listResizeB_allFalse [] _ (by intro m; rfl) i
    · intro h
      have h2 : true = false := h
      exact Bool.noConfusion h2

theorem disable_inv {s : KeyArray} (hinv : StoreInv s) :
    StoreInv (s.disableDynamicResizing true) := by
  unfold KeyArray.disableDynamicResizing
  refine ⟨hinv.off0, hinv.lk0, hinv.dlen, hinv.vlen, hinv.cnt, hinv.pmax, hinv.pnn,
    hinv.pstk, hinv.availFr, ?_, ?_⟩
  · intro h
    have h2 : false = true := h
    exact Bool.noConfusion h2
  · intro _
    exact ⟨rfl, rfl, rfl, rfl⟩

theorem switchop_inv {s : KeyArray} (hinv : StoreInv s) :
    StoreInv s.switchToResizedData.2 := by
  by_cases hg : s.resizingEnabled = false ∨ s.copyInProgress = true
  · rw [switch_eq_error s hg]
    exact hinv
  · have hres : s.resizingEnabled = true := by
      cases hb : s.resizingEnabled
      · exact absurd (Or.inl hb) hg
      · rfl
    have hcp : s.copyInProgress = false := by
      cases hb : s.copyInProgress
      · rfl
      · exact absurd (Or.inr hb) hg
    rw [switch_eq_ok s hres hcp]
    exact (switchedState_inv hinv hres hcp).1

theorem remove_res (s : KeyArray) (k : Int) :
    (s.remove k).2.resizingEnabled = s.resizingEnabled := by
  by_cases hrng : k < s.offset ∨ k > s.lastKey + s.offset
  · unfold KeyArray.remove
    rw [if_pos hrng]
  · by_cases hh : s.baseHasKey (k - s.offset) = true
    · rw [remove_eq_ok s k hrng hh]
      by_cases hres : s.resizingEnabled = true
      · rw [if_pos hres]
      · rw [if_neg hres]
    · unfold KeyArray.remove
      rw [if_neg hrng]
      dsimp only
      rw [baseRemove_eq_error s _ (by simpa using hh)]

theorem setAt_res (s : KeyArray) (k : Int) (v : Val) :
    (s.setAt k v).2.resizingEnabled = s.resizingEnabled := by
  unfold KeyArray.setAt
  by_cases h1 : k < s.offset ∨ k > s.lastKey + s.offset
  · rw [if_pos h1]
  · rw [if_neg h1]
    by_cases h2 : s.baseHasKey (k - s.offset) = false
    · rw [if_pos h2]
    · rw [if_neg h2]

theorem swap_res (s : KeyArray) (k1 k2 : Int) :
    (s.swapE k1 k2).2.resizingEnabled = s.resizingEnabled := by
  unfold KeyArray.swapE
  by_cases h1 : s.hasKeyB k1 = false ∨ s.hasKeyB k2 = false
  · rw [if_pos h1]
  · rw [if_neg h1]

theorem clear_res (s : KeyArray) : s.clear.resizingEnabled = s.resizingEnabled := rfl

theorem enable_res (s : KeyArray) : s.enableDynamicResizing.resizingEnabled = true := by
  unfold KeyArray.enableDynamicResizing
  by_cases hres : s.resizingEnabled = true
  · rw [if_pos hres]
    exact hres
  · rw [if_neg hres]
    dsimp only
    split
    · rfl
    · rfl

theorem disable_res (s : KeyArray) (b : Bool) :
    (s.disableDynamicResizing b).resizingEnabled = false := by
  unfold KeyArray.disableDynamicResizing
  cases b
  · rfl
  · rfl

theorem switchop_res (s : KeyArray) :
    s.switchToResizedData.2.resizingEnabled = s.resizingEnabled := by
  by_cases hg : s.resizingEnabled = false ∨ s.copyInProgress = true
  · rw [switch_eq_error s hg]
  · have hres : s.resizingEnabled = true := by
      cases hb : s.resizingEnabled
      · exact absurd (Or.inl hb) hg
      · rfl
    have hcp : s.copyInProgress = false := by
      cases hb : s.copyInProgress
      · rfl
      · exact absurd (Or.inr hb) hg
    rw [switch_eq_ok s hres hcp]
    exact (switchedState_frame s).2.2.2.1

/-- Each public operation preserves the invariant, provided clear is only
issued while resizing is off. -/
theorem kapply_inv {s : KeyArray} {op : KOp} (hinv : StoreInv s)
    (hcl : op = KOp.kclear → s.resizingEnabled = false) : StoreInv (kapply s op) := by
  cases op with
  | kins v => exact insert_inv v hinv
  | krem k => exact remove_inv k hinv
  | kset k v => exact setAt_inv k v hinv
  | kswap a b => exact swap_inv a b hinv
  | kclear => exact clear_inv hinv (hcl rfl)
  | kenableR => exact enable_inv hinv
  | kdisableR => exact disable_inv hinv
  | kstep => exact continueCopyStep_inv hinv
  | kswitch => exact switchop_inv hinv
  | kenableQ => exact storeInv_queue_irrel s.overflowQueue true hinv
  | kdisableQ => exact storeInv_queue_irrel s.overflowQueue false hinv
  | kclearQ => exact storeInv_queue_irrel [] s.queueEnabled hinv

/-- The trace-level invariant: any clear-safe run from an invariant state
stays in the invariant. -/
theorem krun_inv : ∀ (ops : List KOp) (s : KeyArray), StoreInv s →
    clearSafe s.resizingEnabled ops = true → StoreInv (krun s ops) := by
  intro ops
  induction ops with
  | nil =>
    intro s h _
    exact h
  | cons op rest ih =>
    intro s hinv hcl
    show StoreInv (krun (kapply s op) rest)
    cases op with
    | kins v =>
      refine ih _ (insert_inv v hinv) ?_
      rw [show (kapply s (KOp.kins v)).resizingEnabled = s.resizingEnabled from insert_res s v]
      exact hcl
    | krem k =>
      refine ih _ (remove_inv k hinv) ?_
      rw [show (kapply s (KOp.krem k)).resizingEnabled = s.resizingEnabled from remove_res s k]
      exact hcl
    | kset k v =>
      refine ih _ (setAt_inv k v hinv) ?_
      rw [show (kapply s (KOp.kset k v)).resizingEnabled = s.resizingEnabled from
        setAt_res s k v]
      exact hcl
    | kswap a b =>
      refine ih _ (swap_inv a b hinv) ?_
      rw [show (kapply s (KOp.kswap a b)).resizingEnabled = s.resizingEnabled from
        swap_res s a b]
      exact hcl
    | kclear =>
      have hcl' : (!s.resizingEnabled && clearSafe s.resizingEnabled rest) = true := hcl
      simp only [Bool.and_eq_true, Bool.not_eq_true'] at hcl'
      refine ih _ (clear_inv hinv hcl'.1) ?_
      rw [show (kapply s KOp.kclear).resizingEnabled = s.resizingEnabled from clear_res s]
      exact hcl'.2
    | kenableR =>
      have hcl' : clearSafe true rest = true := hcl
      refine ih _ (enable_inv hinv) ?_
      rw [show (kapply s KOp.kenableR).resizingEnabled = true from enable_res s]
      exact hcl'
    | kdisableR =>
      have hcl' : clearSafe false rest = true := hcl
      refine ih _ (disable_inv hinv) ?_
      rw [show (kapply s KOp.kdisableR).resizingEnabled = false from disable_res s true]
      exact hcl'
    | kstep =>
      refine ih _ (continueCopyStep_inv hinv) ?_
      rw [show (kapply s KOp.kstep).resizingEnabled = s.resizingEnabled from
        (continueCopyStep_frame s).2.2.1]
      exact hcl
    | kswitch =>
      refine ih _ (switchop_inv hinv) ?_
      rw [show (kapply s KOp.kswitch).resizingEnabled = s.resizingEnabled from switchop_res s]
      exact hcl
    | kenableQ =>
      refine ih _ (storeInv_queue_irrel s.overflowQueue true hinv) ?_
      exact hcl
    | kdisableQ =>
      refine ih _ (storeInv_queue_irrel s.overflowQueue false hinv) ?_
      exact hcl
    | kclearQ =>
      refine ih _ (storeInv_queue_irrel [] s.queueEnabled hinv) ?_
      exact hcl

/-- hasKey of an offset-0 store is the base range check plus the validity bit. -/
theorem hasKeyB_off0 (s : KeyArray) (hoff : s.offset = 0) (k : Int) :
    s.hasKeyB k = (decide (0 ≤ k) && decide (k ≤ s.lastKey) && vgetB s.valid k) := by
  unfold KeyArray.hasKeyB KeyArray.baseHasKey
  rw [hoff]
  by_cases h0 : (0 : Int) ≤ k
  · by_cases h1 : k ≤ s.lastKey
    · rw [if_neg (by omega)]
      simp [h0, h1]
    · rw [if_pos (by omega)]
      simp [h1]
  · rw [if_pos (by omega)]
    simp [h0]

/-- The invariant gives all three shape conclusions of the count claim. -/
theorem inv_count_logical {s : KeyArray} (hinv : StoreInv s) :
    s.elementCount = (logicalKeys s).length ∧ (logicalKeys s).Nodup ∧
    (∀ k : Int, s.hasKeyB k = true → k ∈ logicalKeys s) := by
  have hoff := hinv.off0
  have hlk := hinv.lk0
  have hcap : (capOf s.lastKey : Int) = s.lastKey + 1 := capOf_of_nonneg hlk
  have hmap : ∀ i : Nat, i < capOf s.lastKey →
      s.hasKeyB (s.offset + (i : Int)) = s.valid.getD i false := by
    intro i hi
    rw [hoff, zero_add, hasKeyB_off0 s hoff]
    have e1 : decide ((0 : Int) ≤ (i : Int)) = true := by simp
    have e2 : decide ((i : Int) ≤ s.lastKey) = true := by
      simp only [decide_eq_true_eq]
      omega
    rw [e1, e2]
    simp only [Bool.true_and]
    rw [vgetB_eq_getD (by omega), Int.toNat_natCast]
  have hfil : logicalKeys s =
      List.map (fun i : Nat => s.offset + (i : Int))
        ((List.range (capOf s.lastKey)).filter
          ((fun k => s.hasKeyB k) ∘ (fun i : Nat => s.offset + (i : Int)))) := by
    unfold logicalKeys
    rw [List.filter_map]
  have hfil2 : (List.range (capOf s.lastKey)).filter
      ((fun k => s.hasKeyB k) ∘ (fun i : Nat => s.offset + (i : Int))) =
      (List.range (capOf s.lastKey)).filter (fun j => s.valid.getD j false) := by
    apply List.filter_congr
    intro j hj
    simp only [Function.comp_apply]
    exact hmap j (List.mem_range.mp hj)
  refine ⟨?_, ?_, ?_⟩
  · rw [hfil, List.length_map, hfil2, hinv.cnt, countTrue_eq_filter_range, hinv.vlen]
  · rw [hfil]
    apply List.Nodup.map
    · intro a b hab
      have hab2 : s.offset + (a : Int) = s.offset + (b : Int) := hab
      omega
    · exact List.Nodup.filter _ (List.nodup_range _)
  · intro k hk
    have hk2 := hk
    rw [hasKeyB_off0 s hoff] at hk2
    simp only [Bool.and_eq_true, decide_eq_true_eq] at hk2
    obtain ⟨⟨h0, h1⟩, -⟩ := hk2
    unfold logicalKeys
    apply List.mem_filter.mpr
    refine ⟨?_, hk⟩
    apply List.mem_map.mpr
    have hkr : k.toNat ∈ List.range (capOf s.lastKey) := List.mem_range.mpr (by omega)
    refine ⟨k.toNat, hkr, ?_⟩
    rw [hoff, zero_add]
    omega

theorem mkKeyArrayLimit_inv (c : Int) (name : String) (hc : 1 ≤ c) :
    StoreInv (mkKeyArrayLimit c name) := by
  unfold mkKeyArrayLimit mkBase
  refine ⟨rfl, by
    show (0 : Int) ≤ c - 1
    omega, ?_, ?_, ?_, ?_, ?_, ?_, ?_, ?_, ?_⟩
  · show (List.replicate (capOf (c - 1)) (0 : Val)).length = capOf (c - 1)
    exact List.length_replicate _ _
  · show (List.replicate (capOf (c - 1)) false).length = capOf (c - 1)
    exact List.length_replicate _ _
  · exact (countTrue_replicate _).symm
  · show (mkKeyPoolRange 0 (c - 1)).maxKey = c - 1
    rw [mkKeyPoolRange_le (by omega)]
  · show (0 : Int) ≤ (mkKeyPoolRange 0 (c - 1)).nextKey
    rw [mkKeyPoolRange_le (by omega)]
  · show (mkKeyPoolRange 0 (c - 1)).pool = []
    rw [mkKeyPoolRange_le (by omega)]
  · intro j _ _
    exact vgetB_replicate _ _
  · intro h
    exact Bool.noConfusion h
  · intro _
    exact ⟨rfl, rfl, rfl, rfl⟩

/-- C4 counterexample: three public-operation sequences from fresh stores end
in states where size() differs from the number of keys answering hasKey —
(a) saving one entry, loading the snapshot into the same store and inserting
again leaves the count at 2 with a single valid key (the load-time insert
overwrites the still-valid slot 0); (b) a non-purging disableDynamicResizing
followed by re-enabling keeps a stale shadow validity bit, and after the
resize switch the store reports 4 elements while 5 keys answer hasKey;
(c) clear() while resizing is enabled leaves the armed shadow in place, and
the next exhaustion switch resurrects a wiped store whose two inserted values
are lost: the count says 2 but no key answers hasKey. -/
theorem c4_counterexample :
    (c4runA.elementCount = 2 ∧ (logicalKeys c4runA).length = 1) ∧
    (c4runB.elementCount = 4 ∧ (logicalKeys c4runB).length = 5) ∧
    (c4runC.elementCount = 2 ∧ (logicalKeys c4runC).length = 0) := by
  refine ⟨⟨?_, ?_⟩, ⟨?_, ?_⟩, ⟨?_, ?_⟩⟩
  all_goals decide

/-- C4 (amended): for every sequence of in-memory public operations from a
fresh store — with disableDynamicResizing always purging and clear() issued
only while resizing is disabled (and no snapshot loads) — at every point
size() equals the number of keys k with hasKey(k) true, the currently-valid
keys are pairwise distinct, and every key answering hasKey is one of them. -/
theorem c4_amended (c : Int) (name : String) (ops : List KOp) (hc : 1 ≤ c)
    (hcl : clearSafe false ops = true) :
    (krun (mkKeyArrayLimit c name) ops).elementCount =
      (logicalKeys (krun (mkKeyArrayLimit c name) ops)).length ∧
    (logicalKeys (krun (mkKeyArrayLimit c name) ops)).Nodup ∧
    (∀ k : Int, (krun (mkKeyArrayLimit c name) ops).hasKeyB k = true →
      k ∈ logicalKeys (krun (mkKeyArrayLimit c name) ops)) := by
  have hinv := krun_inv ops (mkKeyArrayLimit c name) (mkKeyArrayLimit_inv c name hc) hcl
  exact inv_count_logical hinv

theorem c4_witness :
    (1 ≤ (2 : Int)) ∧
    clearSafe false [KOp.kenableR, KOp.kins 5, KOp.kins 6, KOp.kins 7, KOp.krem 0,
      KOp.kdisableR, KOp.kclear, KOp.kins 8] = true ∧
    ((krun (mkKeyArrayLimit 2 "") [KOp.kenableR, KOp.kins 5, KOp.kins 6, KOp.kins 7, KOp.krem 0,
        KOp.kdisableR, KOp.kclear, KOp.kins 8]).elementCount =
      (logicalKeys (krun (mkKeyArrayLimit 2 "") [KOp.kenableR, KOp.kins 5, KOp.kins 6,
        KOp.kins 7, KOp.krem 0, KOp.kdisableR, KOp.kclear, KOp.kins 8])).length ∧
    (logicalKeys (krun (mkKeyArrayLimit 2 "") [KOp.kenableR, KOp.kins 5, KOp.kins 6, KOp.kins 7,
        KOp.krem 0, KOp.kdisableR, KOp.kclear, KOp.kins 8])).Nodup ∧
    (∀ k : Int, (krun (mkKeyArrayLimit 2 "") [KOp.kenableR, KOp.kins 5, KOp.kins 6, KOp.kins 7,
        KOp.krem 0, KOp.kdisableR, KOp.kclear, KOp.kins 8]).hasKeyB k = true →
      k ∈ logicalKeys (krun (mkKeyArrayLimit 2 "") [KOp.kenableR, KOp.kins 5, KOp.kins 6,
        KOp.kins 7, KOp.krem 0, KOp.kdisableR, KOp.kclear, KOp.kins 8]))) :=
  ⟨by decide, by decide,
   c4_amended 2 "" [KOp.kenableR, KOp.kins 5, KOp.kins 6, KOp.kins 7, KOp.krem 0,
     KOp.kdisableR, KOp.kclear, KOp.kins 8] (by decide) (by decide)⟩

/-- With the copy cursor at 0 nothing has been copied, so value agreement is vacuous. -/
theorem shadowVals_of_ci0 {s : KeyArray} (h : s.copyIndex = 0) : ShadowVals s := by
  intro i h0 hlt hle hv
  rw [h] at hlt
  exact absurd hlt (by omega)

theorem enable_ci (s : KeyArray) :
    s.enableDynamicResizing.copyIndex = s.copyIndex := by
  unfold KeyArray.enableDynamicResizing
  by_cases hres : s.resizingEnabled = true
  · rw [if_pos hres]
  · rw [if_neg hres]
    dsimp only
    split
    · rfl
    · rfl

/-- at() of an offset-0 store on a valid in-range key returns the stored value. -/
theorem atE_off0 (s : KeyArray) (hoff : s.offset = 0) (k : Int)
    (h0 : 0 ≤ k) (h1 : k ≤ s.lastKey) (hv : vgetB s.valid k = true) :
    s.atE k = .ok (vgetV s.data k) := by
  unfold KeyArray.atE KeyArray.baseAt KeyArray.baseHasKey
  rw [hoff]
  rw [if_neg (by omega)]
  rw [sub_zero]
  rw [if_neg (by simp [h0, h1, hv])]

/-- A run of inserts from an armed resizing store keeps the invariant, the
shadow value agreement, and the resizing flag. -/
theorem kinsRun_inv5 (vs : List Val) : ∀ s : KeyArray, StoreInv s → ShadowVals s →
    s.resizingEnabled = true →
    StoreInv (kinsRun s vs) ∧ ShadowVals (kinsRun s vs) ∧
      (kinsRun s vs).resizingEnabled = true := by
  induction vs with
  | nil =>
    intro s h1 h2 h3
    exact ⟨h1, h2, h3⟩
  | cons v rest ih =>
    intro s h1 h2 h3
    show StoreInv (kinsRun (s.insert v).2 rest) ∧ ShadowVals (kinsRun (s.insert v).2 rest) ∧
      (kinsRun (s.insert v).2 rest).resizingEnabled = true
    exact ih _ (insert_inv v h1) (insert_vals v h1 h2) ((insert_res s v).trans h3)

/-- On exhaustion with resizing enabled, the forced-copy-and-switch insert
keeps every previously stored pair readable unchanged. -/
theorem insert_preserves_pairs {s : KeyArray} (v : Val) (hinv : StoreInv s)
    (hsv : ShadowVals s) (hres : s.resizingEnabled = true)
    (hexh : s.pool.isEmptyPool = true) :
    ∀ k : Int, s.hasKeyB k = true →
      (s.insert v).2.hasKeyB k = true ∧ (s.insert v).2.atE k = s.atE k := by
  intro k hk
  have hoff := hinv.off0
  have hlk := hinv.lk0
  have hk' := hk
  rw [hasKeyB_off0 s hoff] at hk'
  simp only [Bool.and_eq_true, decide_eq_true_eq] at hk'
  obtain ⟨⟨h0, h1⟩, hv⟩ := hk'
  rw [insert_eq_exhaust_resize s v hexh hres]
  obtain ⟨tinv, tvals⟩ := forceCopy_inv_vals hinv hsv
  have hFf := forceCopy_frame s
  have hres1 : s.forceCopy.resizingEnabled = true := hFf.2.2.1.trans hres
  have hcp1 : s.forceCopy.copyInProgress = false := forceCopy_not_inProgress s hres
  rw [switch_eq_ok _ hres1 hcp1]
  show ((switchedState s.forceCopy).insertTail v).2.hasKeyB k = true ∧
    ((switchedState s.forceCopy).insertTail v).2.atE k = s.atE k
  obtain ⟨uinv, hune⟩ := switchedState_inv tinv hres1 hcp1
  obtain ⟨hpop, hkle⟩ := inv_pop uinv hune
  rw [insertTail_eq _ v _ _ hpop]
  have sht := tinv.shOn hres1
  have hdone : s.forceCopy.lastKey < s.forceCopy.copyIndex := sht.cidone hcp1
  have hFu := switchedState_frame s.forceCopy
  have htlk : s.forceCopy.lastKey = s.lastKey := hFf.2.1
  have hcapt : (capOf s.forceCopy.lastKey : Int) = s.forceCopy.lastKey + 1 :=
    capOf_of_nonneg (by omega)
  have hndlen : s.forceCopy.newData.length = 2 * capOf s.forceCopy.lastKey := sht.ndlen
  have hndI : (s.forceCopy.newData.length : Int) = 2 * s.lastKey + 2 := by
    rw [hndlen]
    push_cast
    omega
  have hulk2 : (switchedState s.forceCopy).lastKey = 2 * s.lastKey + 1 := by
    rw [hFu.2.1]
    omega
  have hkey : (switchedState s.forceCopy).pool.nextKey = s.forceCopy.lastKey + 1 := by
    rw [hFu.2.2.2.2.2.2.2.2.1, sht.np]
  have hkne : (switchedState s.forceCopy).pool.nextKey ≠ k := by
    rw [hkey]
    omega
  have hures : (switchedState s.forceCopy).resizingEnabled = true :=
    hFu.2.2.2.1.trans hres1
  have hucp : (switchedState s.forceCopy).copyInProgress = true := hFu.2.2.2.2.2.2.2.2.2.1
  have huvalidk : vgetB (switchedState s.forceCopy).valid k = true := by
    rw [hFu.2.2.2.2.2.2.2.1]
    exact sht.mirror1 k h0 (by omega) (by omega) (by
      rw [hFf.2.2.2.2.2.1]
      exact hv)
  have hudatak : vgetV (switchedState s.forceCopy).data k = vgetV s.data k := by
    rw [hFu.2.2.2.2.2.2.1]
    have := tvals k h0 (by omega) (by omega) (by
      rw [hFf.2.2.2.2.2.1]
      exact hv)
    rw [this, hFf.2.2.2.2.1]
  rw [insertTailState_resizing _ _ _ v hures hucp]
  have hFw := continueCopyStep_frame
    { switchedState s.forceCopy with
        pool := { (switchedState s.forceCopy).pool with
          nextKey := (switchedState s.forceCopy).pool.nextKey + 1 }
        data := vsetV (switchedState s.forceCopy).data
          (switchedState s.forceCopy).pool.nextKey v
        valid := vsetB (switchedState s.forceCopy).valid
          (switchedState s.forceCopy).pool.nextKey true
        elementCount := (switchedState s.forceCopy).elementCount + 1
        newData := vsetV (switchedState s.forceCopy).newData
          (switchedState s.forceCopy).pool.nextKey v
        newValid := vsetB (switchedState s.forceCopy).newValid
          (switchedState s.forceCopy).pool.nextKey true }
  have hwoff : (KeyArray.continueCopyStep
      { switchedState s.forceCopy with
          pool := { (switchedState s.forceCopy).pool with
            nextKey := (switchedState s.forceCopy).pool.nextKey + 1 }
          data := vsetV (switchedState s.forceCopy).data
            (switchedState s.forceCopy).pool.nextKey v
          valid := vsetB (switchedState s.forceCopy).valid
            (switchedState s.forceCopy).pool.nextKey true
          elementCount := (switchedState s.forceCopy).elementCount + 1
          newData := vsetV (switchedState s.forceCopy).newData
            (switchedState s.forceCopy).pool.nextKey v
          newValid := vsetB (switchedState s.forceCopy).newValid
            (switchedState s.forceCopy).pool.nextKey true }).offset = 0 := by
    rw [hFw.2.2.2.2.2.2.2.2.1]
    exact hFu.2.2.1.trans (hFf.2.2.2.2.2.2.2.2.1.trans hoff)
  have hwlk : (KeyArray.continueCopyStep
      { switchedState s.forceCopy with
          pool := { (switchedState s.forceCopy).pool with
            nextKey := (switchedState s.forceCopy).pool.nextKey + 1 }
          data := vsetV (switchedState s.forceCopy).data
            (switchedState s.forceCopy).pool.nextKey v
          valid := vsetB (switchedState s.forceCopy).valid
            (switchedState s.forceCopy).pool.nextKey true
          elementCount := (switchedState s.forceCopy).elementCount + 1
          newData := vsetV (switchedState s.forceCopy).newData
            (switchedState s.forceCopy).pool.nextKey v
          newValid := vsetB (switchedState s.forceCopy).newValid
            (switchedState s.forceCopy).pool.nextKey true }).lastKey = 2 * s.lastKey + 1 := by
    rw [hFw.2.1]
    exact hulk2
  have hwvalid : vgetB (KeyArray.continueCopyStep
      { switchedState s.forceCopy with
          pool := { (switchedState s.forceCopy).pool with
            nextKey := (switchedState s.forceCopy).pool.nextKey + 1 }
          data := vsetV (switchedState s.forceCopy).data
            (switchedState s.forceCopy).pool.nextKey v
          valid := vsetB (switchedState s.forceCopy).valid
            (switchedState s.forceCopy).pool.nextKey true
          elementCount := (switchedState s.forceCopy).elementCount + 1
          newData := vsetV (switchedState s.forceCopy).newData
            (switchedState s.forceCopy).pool.nextKey v
          newValid := vsetB (switchedState s.forceCopy).newValid
            (switchedState s.forceCopy).pool.nextKey true }).valid k = true := by
    rw [hFw.2.2.2.2.2.1]
    show vgetB (vsetB (switchedState s.forceCopy).valid
      (switchedState s.forceCopy).pool.nextKey true) k = true
    rw [vgetB_vsetB_ne hkne]
    exact huvalidk
  have hwdata : vgetV (KeyArray.continueCopyStep
      { switchedState s.forceCopy with
          pool := { (switchedState s.forceCopy).pool with
            nextKey := (switchedState s.forceCopy).pool.nextKey + 1 }
          data := vsetV (switchedState s.forceCopy).data
            (switchedState s.forceCopy).pool.nextKey v
          valid := vsetB (switchedState s.forceCopy).valid
            (switchedState s.forceCopy).pool.nextKey true
          elementCount := (switchedState s.forceCopy).elementCount + 1
          newData := vsetV (switchedState s.forceCopy).newData
            (switchedState s.forceCopy).pool.nextKey v
          newValid := vsetB (switchedState s.forceCopy).newValid
            (switchedState s.forceCopy).pool.nextKey true }).data k = vgetV s.data k := by
    rw [hFw.2.2.2.2.1]
    show vgetV (vsetV (switchedState s.forceCopy).data
      (switchedState s.forceCopy).pool.nextKey v) k = vgetV s.data k
    rw [vgetV_vsetV_ne hkne]
    exact hudatak
  constructor
  · rw [hasKeyB_off0 _ hwoff]
    simp only [Bool.and_eq_true, decide_eq_true_eq]
    refine ⟨⟨h0, ?_⟩, hwvalid⟩
    rw [hwlk]
    omega
  · rw [atE_off0 _ hwoff k h0 (by rw [hwlk]; omega) hwvalid,
      atE_off0 s hoff k h0 h1 hv, hwdata]

/-- C5: after enabling the Resizer on a fresh store and running any sequence of
inserts, once the active pool is exhausted the next insert takes the
resize-and-switch path and every (key, value) pair present immediately before
it is still retrievable unchanged through at() afterwards; the switch is
preceded by forcing the remaining migration steps to completion (the forced
loop always ends with the copy finished), and switching while a migration is
unfinished fails with ResizeNotReady. -/
theorem c5_resize_preserves (c : Int) (name : String) (vs : List Val) (v : Val)
    (hc : 1 ≤ c)
    (hexh : (kinsRun (mkKeyArrayLimit c name).enableDynamicResizing vs).pool.isEmptyPool =
      true) :
    (∀ k : Int,
      (kinsRun (mkKeyArrayLimit c name).enableDynamicResizing vs).hasKeyB k = true →
      ((kinsRun (mkKeyArrayLimit c name).enableDynamicResizing vs).insert v).2.hasKeyB k =
        true ∧
      ((kinsRun (mkKeyArrayLimit c name).enableDynamicResizing vs).insert v).2.atE k =
        (kinsRun (mkKeyArrayLimit c name).enableDynamicResizing vs).atE k) ∧
    (kinsRun (mkKeyArrayLimit c name).enableDynamicResizing vs).forceCopy.copyInProgress =
      false ∧
    (∀ t : KeyArray, t.copyInProgress = true →
      t.switchToResizedData = (.error .ResizeNotReady, t)) := by
  have h0inv : StoreInv (mkKeyArrayLimit c name).enableDynamicResizing :=
    enable_inv (mkKeyArrayLimit_inv c name hc)
  have h0vals : ShadowVals (mkKeyArrayLimit c name).enableDynamicResizing :=
    shadowVals_of_ci0 (by rw [enable_ci]; rfl)
  have h0res := enable_res (mkKeyArrayLimit c name)
  obtain ⟨hinv, hsv, hres⟩ := kinsRun_inv5 vs _ h0inv h0vals h0res
  exact ⟨insert_preserves_pairs v hinv hsv hres hexh,
    forceCopy_not_inProgress _ hres,
    fun t ht => switch_eq_error t (Or.inr ht)⟩

theorem c5_witness :
    (1 ≤ (1 : Int)) ∧
    (kinsRun (mkKeyArrayLimit 1 "").enableDynamicResizing [7]).pool.isEmptyPool = true ∧
    ((∀ k : Int,
      (kinsRun (mkKeyArrayLimit 1 "").enableDynamicResizing [7]).hasKeyB k = true →
      ((kinsRun (mkKeyArrayLimit 1 "").enableDynamicResizing [7]).insert 8).2.hasKeyB k =
        true ∧
      ((kinsRun (mkKeyArrayLimit 1 "").enableDynamicResizing [7]).insert 8).2.atE k =
        (kinsRun (mkKeyArrayLimit 1 "").enableDynamicResizing [7]).atE k) ∧
    (kinsRun (mkKeyArrayLimit 1 "").enableDynamicResizing [7]).forceCopy.copyInProgress =
      false ∧
    (∀ t : KeyArray, t.copyInProgress = true →
      t.switchToResizedData = (.error .ResizeNotReady, t))) :=
  ⟨by decide, by decide, c5_resize_preserves 1 "" [7] 8 (by decide) (by decide)⟩
